import Mathlib

/-!
Verification of the nixpkgs python-library updater
(src/pkgs/by-name/up/update-python-libraries/update-python-libraries.py).

Texts are modelled as lists of characters (`Str`).  Every regular
expression used by the script is a fixed concrete pattern, so each one is
embedded as a dedicated deterministic matcher implementing Python `re`
semantics for that pattern (leftmost scan, non-overlapping continuation
after each match, greedy subpatterns with backtracking).  Python
`str.replace` is embedded as `replaceAll`, `str.count` as `pyCount`.
-/

abbrev Str := List Char

/-- Python `\s` restricted to the ASCII whitespace characters
(nix expressions processed by the script are ASCII). -/
def pySpace (c : Char) : Bool :=
  c = ' ' || c = '\t' || c = '\n' || c = '\r' || c = '\x0b' || c = '\x0c'

/-- Literal pattern test at the head of a text. -/
def isPrefixL : Str → Str → Bool
  | [], _ => true
  | _ :: _, [] => false
  | a :: p, b :: s => a = b && isPrefixL p s

/-- Strip a literal pattern from the front of a text. -/
def stripLit : Str → Str → Option Str
  | [], s => some s
  | _ :: _, [] => none
  | a :: p, b :: s => if a = b then stripLit p s else none

theorem stripLit_eq : ∀ {p s r : Str}, stripLit p s = some r → s = p ++ r
  | [], s, r, h => by simpa [stripLit] using Option.some.inj h
  | a :: p, b :: s, r, h => by
    by_cases hab : a = b
    · subst hab
      simp only [stripLit, if_pos rfl] at h
      simpa using stripLit_eq h
    · simp [stripLit, hab] at h

theorem stripLit_append (p r : Str) : stripLit p (p ++ r) = some r := by
  induction p with
  | nil => simp [stripLit]
  | cons a p ih => simp [stripLit, ih]

theorem stripLit_some_iff {p s r : Str} : stripLit p s = some r ↔ s = p ++ r := by
  constructor
  · exact stripLit_eq
  · rintro rfl; exact stripLit_append p r

theorem isPrefixL_iff {p s : Str} : isPrefixL p s = true ↔ ∃ r, s = p ++ r := by
  induction p generalizing s with
  | nil => simp [isPrefixL]
  | cons a p ih =>
    cases s with
    | nil => simp [isPrefixL]
    | cons b s =>
      simp only [isPrefixL, Bool.and_eq_true, decide_eq_true_eq, ih]
      constructor
      · rintro ⟨rfl, r, rfl⟩; exact ⟨r, rfl⟩
      · rintro ⟨r, hr⟩
        injection hr with h1 h2
        exact ⟨h1.symm, r, h2⟩

theorem stripLit_isPrefixL {p s : Str} (h : isPrefixL p s = true) :
    stripLit p s = some (s.drop p.length) := by
  rcases isPrefixL_iff.1 h with ⟨r, rfl⟩
  rw [stripLit_append]
  simp

theorem stripLit_none_of_not {p s : Str} (h : isPrefixL p s = false) :
    stripLit p s = none := by
  cases hs : stripLit p s with
  | none => rfl
  | some r =>
    exfalso
    have := stripLit_eq hs
    have : isPrefixL p s = true := isPrefixL_iff.2 ⟨r, this⟩
    simp [this] at h

/-- Greedily take a run of Python whitespace. -/
def takeWs : Str → Str × Str
  | [] => ([], [])
  | c :: r =>
    if pySpace c then
      let t := takeWs r
      (c :: t.1, t.2)
    else ([], c :: r)

theorem takeWs_eq : ∀ s : Str, (takeWs s).1 ++ (takeWs s).2 = s
  | [] => rfl
  | c :: r => by
    by_cases h : pySpace c
    · simp [takeWs, h, takeWs_eq r]
    · simp [takeWs, h]

theorem takeWs_append {w : Str} (c : Char) (r : Str)
    (hw : ∀ x ∈ w, pySpace x = true) (hc : pySpace c = false) :
    takeWs (w ++ c :: r) = (w, c :: r) := by
  induction w with
  | nil => simp [takeWs, hc]
  | cons a w ih =>
    have ha : pySpace a = true := hw a (by simp)
    have ihw : ∀ x ∈ w, pySpace x = true := fun x hx => hw x (by simp [hx])
    simp [takeWs, ha, ih ihw]


/-- Greedy match of the regex tail component of the assignment pattern after
its opening quote: the content matched by greedy `(.*)` (no newline) followed
by the literal quote and semicolon characters.  Returns the captured content
and the remainder of the text after the match.  Backtracking greediness:
at each character the longer content is preferred. -/
def greedyQuoted : Str → Option (Str × Str)
  | [] => none
  | c :: rest =>
    if c = '\n' then none
    else
      match greedyQuoted rest with
      | some (v, r) => some (c :: v, r)
      | none =>
        if c = '"' then
          match rest with
          | [] => none
          | d :: r => if d = ';' then some ([], r) else none
        else none

theorem greedyQuoted_eq :
    ∀ {s v r : Str}, greedyQuoted s = some (v, r) → s = v ++ '"' :: ';' :: r := by
  intro s
  induction s with
  | nil => intro v r h; simp [greedyQuoted] at h
  | cons c rest ih =>
    intro v r h
    simp only [greedyQuoted] at h
    by_cases hc : c = '\n'
    · simp [hc] at h
    · rw [if_neg hc] at h
      cases hq : greedyQuoted rest with
      | some p =>
        obtain ⟨v0, r0⟩ := p
        rw [hq] at h
        injection h with h
        injection h with h1 h2
        subst h2
        rcases h1.symm with rfl
        simpa using ih hq
      | none =>
        rw [hq] at h
        by_cases hcq : c = '"'
        · rw [if_pos hcq] at h
          subst hcq
          cases rest with
          | nil => simp at h
          | cons d rest' =>
            have h2 : (if d = ';' then some (([] : Str), rest') else none) =
                some (v, r) := h
            by_cases hd : d = ';'
            · subst hd
              rw [if_pos rfl] at h2
              injection h2 with h2
              injection h2 with h1 h3
              subst h3
              rcases h1.symm with rfl
              simp
            · rw [if_neg hd] at h2
              exact absurd h2 (by simp)
        · simp [hcq] at h

/-- Whether the text contains an adjacent quote-semicolon pair
(a possible end for the greedy quoted pattern). -/
def hasCloseIn : Str → Bool
  | [] => false
  | [_] => false
  | c :: d :: rest => (c = '"' && d = ';') || hasCloseIn (d :: rest)

theorem greedyQuoted_none {s : Str}
    (h : hasCloseIn (s.takeWhile (fun c => c ≠ '\n')) = false) :
    greedyQuoted s = none := by
  induction s with
  | nil => simp [greedyQuoted]
  | cons c rest ih =>
    by_cases hc : c = '\n'
    · simp [greedyQuoted, hc]
    · have hline : (c :: rest).takeWhile (fun c => c ≠ '\n') =
          c :: rest.takeWhile (fun c => c ≠ '\n') := by
        simp [List.takeWhile_cons, hc]
      rw [hline] at h
      have hrest : hasCloseIn (rest.takeWhile (fun c => c ≠ '\n')) = false := by
        cases htk : rest.takeWhile (fun c => c ≠ '\n') with
        | nil => simp [hasCloseIn]
        | cons d L =>
          rw [htk] at h
          simp only [hasCloseIn, Bool.or_eq_false_iff] at h
          exact h.2
      simp only [greedyQuoted, if_neg hc, ih hrest]
      by_cases hcq : c = '"'
      · subst hcq
        cases rest with
        | nil => simp
        | cons d rest' =>
          by_cases hd : d = ';'
          · subst hd
            exfalso
            have htk2 : (';' :: rest').takeWhile (fun c => c ≠ '\n') =
                ';' :: rest'.takeWhile (fun c => c ≠ '\n') := by
              simp [List.takeWhile_cons]
            rw [htk2] at h
            simp [hasCloseIn] at h
          · simp [hd]
      · simp [hcq]


/-- Strip one expected character from the front of a text. -/
def headIs (c : Char) : Str → Option Str
  | [] => none
  | d :: r => if d = c then some r else none

theorem headIs_eq {c : Char} {s r : Str} (h : headIs c s = some r) : s = c :: r := by
  cases s with
  | nil => simp [headIs] at h
  | cons d s =>
    by_cases hd : d = c
    · subst hd
      simp only [headIs, if_pos rfl] at h
      rw [Option.some.inj h]
    · simp [headIs, hd] at h

/-- One attempt of the assignment regex at the head of `s`.  With
`vpat = none` this is the pattern used by `_get_values` and
`_get_line_and_value` without an expected value (attribute, one or more
whitespace, equals sign, one or more whitespace, quote, greedy any-character
content, quote, semicolon); with `vpat = some lit` the content is the escaped
literal `lit` as in `_get_line_and_value` with an expected value.
Returns (whole match, captured value, remainder after the match). -/
def matchAssignAt (attr : Str) (vpat : Option Str) (s : Str) :
    Option (Str × Str × Str) := do
  let s1 ← stripLit attr s
  let t1 := takeWs s1
  if t1.1.isEmpty then none else do
  let s3 ← headIs '=' t1.2
  let t2 := takeWs s3
  if t2.1.isEmpty then none else do
  let s5 ← headIs '"' t2.2
  match vpat with
  | none => do
    let vr ← greedyQuoted s5
    some (attr ++ t1.1 ++ '=' :: t2.1 ++ '"' :: vr.1 ++ ['"', ';'], vr.1, vr.2)
  | some lit => do
    let r ← stripLit (lit ++ ['"', ';']) s5
    some (attr ++ t1.1 ++ '=' :: t2.1 ++ '"' :: lit ++ ['"', ';'], lit, r)

theorem matchAssignAt_eq {attr s m v r : Str} {vpat : Option Str}
    (h : matchAssignAt attr vpat s = some (m, v, r)) :
    s = m ++ r ∧ m ≠ [] := by
  unfold matchAssignAt at h
  simp only [Option.bind_eq_some, bind, Option.ite_none_left_eq_some] at h
  obtain ⟨s1, hs1, hw1, s3, hs3, hw2, s5, hs5, hrest⟩ := h
  obtain ⟨w1, s2a, htw1⟩ : ∃ a b, takeWs s1 = (a, b) := ⟨_, _, rfl⟩
  obtain ⟨w2, s4a, htw2⟩ : ∃ a b, takeWs s3 = (a, b) := ⟨_, _, rfl⟩
  rw [htw1] at hw1 hs3
  rw [htw2] at hw2 hs5
  have he1 : s = attr ++ s1 := stripLit_eq hs1
  have he2 : w1 ++ '=' :: s3 = s1 := by
    have ht := takeWs_eq s1
    rw [htw1] at ht
    rw [← headIs_eq hs3]
    exact ht
  have he3 : w2 ++ '"' :: s5 = s3 := by
    have ht := takeWs_eq s3
    rw [htw2] at ht
    rw [← headIs_eq hs5]
    exact ht
  have hw1ne : w1 ≠ [] := by
    simpa [List.isEmpty_iff] using hw1
  cases vpat with
  | none =>
    simp only [Option.bind_eq_some] at hrest
    obtain ⟨vr, hvr, hout⟩ := hrest
    injection hout with hout
    injection hout with h1 h'
    injection h' with h2 h3
    subst h1 h2 h3
    rw [htw1, htw2]
    refine ⟨?_, by simp [hw1ne]⟩
    rw [he1, ← he2, ← he3, greedyQuoted_eq (show greedyQuoted s5 = some (vr.1, vr.2) by rw [hvr])]
    simp
  | some lit =>
    simp only [Option.bind_eq_some] at hrest
    obtain ⟨r0, hr0, hout⟩ := hrest
    injection hout with hout
    injection hout with h1 h'
    injection h' with h2 h3
    subst h1 h2 h3
    rw [htw1, htw2]
    refine ⟨?_, by simp [hw1ne]⟩
    rw [he1, ← he2, ← he3, stripLit_eq hr0]
    simp

theorem ne_nil_of_ne {pat : Str} (hne : pat ≠ []) (B : Str) : pat ++ B ≠ [] := by
  cases pat with
  | nil => exact absurd rfl hne
  | cons p pt => simp

theorem length_pos_of_ne {pat : Str} (hne : pat ≠ []) : 1 ≤ pat.length := by
  cases pat with
  | nil => exact absurd rfl hne
  | cons p pt => simp

/-- Fuel-driven scan for `re.findall` of the assignment pattern: leftmost
scan, and after a match the scan continues at the end of the match
(non-overlapping).  The fuel only serves structural recursion; the
wrapper `findAll` supplies enough fuel for the whole scan. -/
def findAllF (attr : Str) (vpat : Option Str) : Nat → Str → List (Str × Str)
  | 0, _ => []
  | _ + 1, [] => []
  | fuel + 1, c :: rest =>
    match matchAssignAt attr vpat (c :: rest) with
    | some (m, v, r) => (m, v) :: findAllF attr vpat fuel r
    | none => findAllF attr vpat fuel rest

/-- `re.findall` for the assignment pattern, returning the list of
(whole match, captured value) pairs, as the two capture groups of
`_get_line_and_value`'s pattern. -/
def findAll (attr : Str) (vpat : Option Str) (s : Str) : List (Str × Str) :=
  findAllF attr vpat s.length s

theorem findAllF_fuel {attr : Str} {vpat : Option Str} :
    ∀ {f1 : Nat} {s : Str} {f2 : Nat}, s.length ≤ f1 → s.length ≤ f2 →
      findAllF attr vpat f1 s = findAllF attr vpat f2 s := by
  intro f1
  induction f1 with
  | zero =>
    intro s f2 h1 _
    have hs : s = [] := List.eq_nil_of_length_eq_zero (Nat.le_zero.1 h1)
    subst hs
    cases f2 <;> rfl
  | succ f1' ih =>
    intro s f2 h1 h2
    cases s with
    | nil => cases f2 <;> rfl
    | cons c rest =>
      cases f2 with
      | zero => simp at h2
      | succ f2' =>
        simp only [findAllF]
        have hrest1 : rest.length ≤ f1' := by
          simp only [List.length_cons] at h1; omega
        have hrest2 : rest.length ≤ f2' := by
          simp only [List.length_cons] at h2; omega
        cases hm : matchAssignAt attr vpat (c :: rest) with
        | some x =>
          obtain ⟨m, v, r⟩ := x
          obtain ⟨hsplit, hne⟩ := matchAssignAt_eq hm
          have hr : r.length ≤ rest.length := by
            have hlen : (c :: rest).length = m.length + r.length := by
              rw [hsplit, List.length_append]
            have hmp := length_pos_of_ne hne
            simp only [List.length_cons] at hlen
            omega
          show (m, v) :: findAllF attr vpat f1' r = (m, v) :: findAllF attr vpat f2' r
          rw [ih (Nat.le_trans hr hrest1) (Nat.le_trans hr hrest2)]
        | none =>
          show findAllF attr vpat f1' rest = findAllF attr vpat f2' rest
          rw [ih hrest1 hrest2]

theorem findAll_nil (attr : Str) (vpat : Option Str) : findAll attr vpat [] = [] := rfl

theorem findAll_cons_some {attr m v r : Str} {vpat : Option Str} {c : Char} {rest : Str}
    (h : matchAssignAt attr vpat (c :: rest) = some (m, v, r)) :
    findAll attr vpat (c :: rest) = (m, v) :: findAll attr vpat r := by
  obtain ⟨hsplit, hne⟩ := matchAssignAt_eq h
  have hr : r.length ≤ rest.length := by
    have hlen : (c :: rest).length = m.length + r.length := by
      rw [hsplit, List.length_append]
    have hmp := length_pos_of_ne hne
    simp only [List.length_cons] at hlen
    omega
  unfold findAll
  simp only [List.length_cons, findAllF, h]
  rw [findAllF_fuel hr (Nat.le_refl r.length)]

theorem findAll_cons_none {attr : Str} {vpat : Option Str} {c : Char} {rest : Str}
    (h : matchAssignAt attr vpat (c :: rest) = none) :
    findAll attr vpat (c :: rest) = findAll attr vpat rest := by
  unfold findAll
  simp only [List.length_cons, findAllF, h]

/-- Python `str.replace("", new)`: an empty pattern inserts `new` at every
position, matching Python. -/
def replaceAllNilF (new : Str) : Str → Str
  | [] => new
  | c :: rest => new ++ c :: replaceAllNilF new rest

/-- Fuel-driven scan for Python `str.replace(old, new)` with non-empty
`old`: replace all non-overlapping occurrences, scanning from the left. -/
def replaceAllF (old new : Str) : Nat → Str → Str
  | 0, _ => []
  | _ + 1, [] => []
  | fuel + 1, c :: rest =>
    match stripLit old (c :: rest) with
    | some r => new ++ replaceAllF old new fuel r
    | none => c :: replaceAllF old new fuel rest

/-- Python `str.replace(old, new)`. -/
def replaceAll (old new s : Str) : Str :=
  if old = [] then replaceAllNilF new s else replaceAllF old new s.length s

theorem replaceAllF_fuel {old new : Str} (hne : old ≠ []) :
    ∀ {f1 : Nat} {s : Str} {f2 : Nat}, s.length ≤ f1 → s.length ≤ f2 →
      replaceAllF old new f1 s = replaceAllF old new f2 s := by
  intro f1
  induction f1 with
  | zero =>
    intro s f2 h1 _
    have hs : s = [] := List.eq_nil_of_length_eq_zero (Nat.le_zero.1 h1)
    subst hs
    cases f2 <;> rfl
  | succ f1' ih =>
    intro s f2 h1 h2
    cases s with
    | nil => cases f2 <;> rfl
    | cons c rest =>
      cases f2 with
      | zero => simp at h2
      | succ f2' =>
        simp only [replaceAllF]
        have hrest1 : rest.length ≤ f1' := by
          simp only [List.length_cons] at h1; omega
        have hrest2 : rest.length ≤ f2' := by
          simp only [List.length_cons] at h2; omega
        cases hm : stripLit old (c :: rest) with
        | some r =>
          have hsplit := stripLit_eq hm
          have hr : r.length ≤ rest.length := by
            have hlen : (c :: rest).length = old.length + r.length := by
              rw [hsplit, List.length_append]
            have hmp := length_pos_of_ne hne
            simp only [List.length_cons] at hlen
            omega
          show new ++ replaceAllF old new f1' r = new ++ replaceAllF old new f2' r
          rw [ih (Nat.le_trans hr hrest1) (Nat.le_trans hr hrest2)]
        | none =>
          show c :: replaceAllF old new f1' rest = c :: replaceAllF old new f2' rest
          rw [ih hrest1 hrest2]

theorem replaceAll_nil_ne {old new : Str} (h : old ≠ []) : replaceAll old new [] = [] := by
  unfold replaceAll
  rw [if_neg h]
  rfl

theorem replaceAll_cons_some {old new r : Str} {c : Char} {rest : Str} (hne : old ≠ [])
    (h : stripLit old (c :: rest) = some r) :
    replaceAll old new (c :: rest) = new ++ replaceAll old new r := by
  have hsplit := stripLit_eq h
  have hr : r.length ≤ rest.length := by
    have hlen : (c :: rest).length = old.length + r.length := by
      rw [hsplit, List.length_append]
    have hmp := length_pos_of_ne hne
    simp only [List.length_cons] at hlen
    omega
  unfold replaceAll
  rw [if_neg hne, if_neg hne]
  simp only [List.length_cons, replaceAllF, h]
  rw [replaceAllF_fuel hne hr (Nat.le_refl r.length)]

theorem replaceAll_cons_none {old new : Str} {c : Char} {rest : Str} (hne : old ≠ [])
    (h : stripLit old (c :: rest) = none) :
    replaceAll old new (c :: rest) = c :: replaceAll old new rest := by
  unfold replaceAll
  rw [if_neg hne, if_neg hne]
  simp only [List.length_cons, replaceAllF, h]

/-- Fuel-driven scan for Python `str.count(sub)` with non-empty `sub`:
number of non-overlapping occurrences, scanning from the left. -/
def pyCountF (sub : Str) : Nat → Str → Nat
  | 0, _ => 0
  | _ + 1, [] => 0
  | fuel + 1, c :: rest =>
    match stripLit sub (c :: rest) with
    | some r => pyCountF sub fuel r + 1
    | none => pyCountF sub fuel rest

/-- Python `str.count(sub)`.  For an empty pattern Python counts
length + 1. -/
def pyCount (sub s : Str) : Nat :=
  if sub = [] then s.length + 1 else pyCountF sub s.length s

/-- `pat` occurs as a contiguous substring at no position of `s`. -/
def noOccur (pat s : Str) : Prop :=
  ∀ i, i < s.length → isPrefixL pat (s.drop i) = false

/-- Every occurrence of `pat` as a contiguous substring of `s` is at
position `j`. -/
def occOnlyAt (pat s : Str) (j : Nat) : Prop :=
  ∀ i, i < s.length → isPrefixL pat (s.drop i) = true → i = j

instance (pat s : Str) : Decidable (noOccur pat s) := by
  unfold noOccur
  infer_instance

instance (pat s : Str) (j : Nat) : Decidable (occOnlyAt pat s j) := by
  unfold occOnlyAt
  infer_instance

theorem drop_append_len (l t : List Char) (n : Nat) :
    (l ++ t).drop (l.length + n) = t.drop n := by
  induction l with
  | nil => simp
  | cons c l ih =>
    have : (c :: l).length + n = (l.length + n) + 1 := by
      simp only [List.length_cons]; omega
    rw [this]
    simpa using ih

theorem occ_self {A pat B : Str} :
    isPrefixL pat ((A ++ (pat ++ B)).drop A.length) = true := by
  have h := drop_append_len A (pat ++ B) 0
  simp only [Nat.add_zero, List.drop_zero] at h
  rw [h]
  exact isPrefixL_iff.2 ⟨B, rfl⟩

theorem replaceAll_eq_some {old new r s : Str} (hne : old ≠ []) (hs : s ≠ [])
    (h : stripLit old s = some r) :
    replaceAll old new s = new ++ replaceAll old new r := by
  cases s with
  | nil => exact absurd rfl hs
  | cons c rest => exact replaceAll_cons_some hne h

theorem replaceAll_eq_none {old new s : Str} (hne : old ≠ []) (hs : s ≠ [])
    (h : stripLit old s = none) :
    replaceAll old new s = match s with | [] => [] | c :: rest => c :: replaceAll old new rest := by
  cases s with
  | nil => exact absurd rfl hs
  | cons c rest => exact replaceAll_cons_none hne h

theorem replaceAll_of_noOccur {pat new : Str} (hne : pat ≠ []) :
    ∀ {s : Str}, noOccur pat s → replaceAll pat new s = s := by
  intro s
  induction s with
  | nil => intro h; exact replaceAll_nil_ne hne
  | cons c rest ih =>
    intro h
    have h0 : isPrefixL pat (c :: rest) = false := by
      have := h 0 (by simp)
      simpa using this
    rw [replaceAll_cons_none hne (stripLit_none_of_not h0)]
    rw [ih]
    intro i hi
    have := h (i + 1) (by simp; omega)
    rw [List.drop_succ_cons] at this
    exact this

theorem replaceAll_unique {pat new : Str} (hne : pat ≠ []) :
    ∀ {A B : Str}, occOnlyAt pat (A ++ (pat ++ B)) A.length →
      replaceAll pat new (A ++ (pat ++ B)) = A ++ (new ++ B) := by
  intro A
  induction A with
  | nil =>
    intro B hu
    simp only [List.nil_append] at hu ⊢
    rw [replaceAll_eq_some hne (ne_nil_of_ne hne B) (stripLit_append pat B)]
    have hB : replaceAll pat new B = B := by
      apply replaceAll_of_noOccur hne
      intro i hi
      by_contra hcon
      simp only [Bool.not_eq_false] at hcon
      have hbound : pat.length + i < (pat ++ B).length := by
        simp only [List.length_append]; omega
      have hthis := hu (pat.length + i) hbound (by
        rw [drop_append_len pat B i]
        exact hcon)
      have hplen := length_pos_of_ne hne
      simp only [List.length_nil] at hthis
      omega
    rw [hB]
  | cons a A' ih =>
    intro B hu
    have h0 : isPrefixL pat (a :: (A' ++ (pat ++ B))) = false := by
      by_contra hcon
      simp only [Bool.not_eq_false] at hcon
      have hthis := hu 0 (by simp) (by simpa using hcon)
      simp at hthis
    have hform : (a :: A') ++ (pat ++ B) = a :: (A' ++ (pat ++ B)) := by simp
    rw [hform]
    rw [replaceAll_cons_none hne (stripLit_none_of_not h0)]
    rw [ih]
    · simp
    · intro i hi hpre
      have hthis := hu (i + 1) (by
          rw [hform]
          simpa using Nat.succ_lt_succ hi) (by
        rw [hform, List.drop_succ_cons]
        exact hpre)
      simpa using hthis

theorem matchAssignAt_attr_pre {attr s : Str} {vpat : Option Str} {x : Str × Str × Str}
    (h : matchAssignAt attr vpat s = some x) : isPrefixL attr s = true := by
  unfold matchAssignAt at h
  simp only [Option.bind_eq_some, bind, Option.ite_none_left_eq_some] at h
  obtain ⟨s1, hs1, _⟩ := h
  exact isPrefixL_iff.2 ⟨s1, stripLit_eq hs1⟩

theorem findAll_empty_of_noOccur {attr : Str} {vpat : Option Str} :
    ∀ {s : Str}, noOccur attr s → findAll attr vpat s = [] := by
  intro s
  induction s with
  | nil => intro _; exact findAll_nil attr vpat
  | cons c rest ih =>
    intro h
    cases hm : matchAssignAt attr vpat (c :: rest) with
    | some x =>
      exfalso
      have hpre := matchAssignAt_attr_pre hm
      have hfalse := h 0 (by simp)
      simp only [List.drop_zero] at hfalse
      rw [hpre] at hfalse
      simp at hfalse
    | none =>
      rw [findAll_cons_none hm]
      apply ih
      intro i hi
      have := h (i + 1) (by simp; omega)
      rw [List.drop_succ_cons] at this
      exact this

theorem greedyQuoted_cons (c : Char) (rest : Str) (hc : ¬ c = '\n') :
    greedyQuoted (c :: rest) =
      match greedyQuoted rest with
      | some (v, r) => some (c :: v, r)
      | none =>
        if c = '"' then
          match rest with
          | [] => none
          | d :: r => if d = ';' then some ([], r) else none
        else none := by
  simp only [greedyQuoted]
  rw [if_neg hc]
  rfl

theorem greedyQuoted_head {v S : Str} (hv : '\n' ∉ v)
    (hS : hasCloseIn (S.takeWhile (fun c => c ≠ '\n')) = false) :
    greedyQuoted (v ++ '"' :: ';' :: S) = some (v, S) := by
  induction v with
  | nil =>
    have hnone : greedyQuoted (';' :: S) = none := by
      apply greedyQuoted_none
      have hline : (';' :: S).takeWhile (fun c => c ≠ '\n') =
          ';' :: S.takeWhile (fun c => c ≠ '\n') := by
        simp [List.takeWhile_cons]
      rw [hline]
      cases htk : S.takeWhile (fun c => c ≠ '\n') with
      | nil => simp [hasCloseIn]
      | cons d L =>
        rw [htk] at hS
        simp [hasCloseIn, hS]
    simp only [List.nil_append]
    rw [greedyQuoted_cons '"' (';' :: S) (by decide), hnone]
    simp
  | cons c v' ih =>
    have hc : ¬ c = '\n' := fun hcc => hv (by simp [hcc])
    have ih' := ih (fun hin => hv (by simp [hin]))
    simp only [List.cons_append]
    rw [greedyQuoted_cons c (v' ++ '"' :: ';' :: S) hc, ih']

theorem pySpace_eq_false_eq : pySpace '=' = false := by decide

theorem pySpace_quote_false : pySpace '"' = false := by decide

theorem isEmpty_false_of_ne {l : Str} (h : l ≠ []) : l.isEmpty = false := by
  cases l with
  | nil => exact absurd rfl h
  | cons a t => rfl

theorem matchAssignAt_head {attr w1 w2 v S : Str}
    (hw1 : w1 ≠ []) (hw1s : ∀ c ∈ w1, pySpace c = true)
    (hw2 : w2 ≠ []) (hw2s : ∀ c ∈ w2, pySpace c = true)
    (hv : '\n' ∉ v)
    (hS : hasCloseIn (S.takeWhile (fun c => c ≠ '\n')) = false) :
    matchAssignAt attr none (attr ++ (w1 ++ '=' :: (w2 ++ '"' :: (v ++ '"' :: ';' :: S)))) =
      some (attr ++ w1 ++ '=' :: w2 ++ '"' :: v ++ ['"', ';'], v, S) := by
  unfold matchAssignAt
  rw [stripLit_append]
  have ht1 : takeWs (w1 ++ '=' :: (w2 ++ '"' :: (v ++ '"' :: ';' :: S))) =
      (w1, '=' :: (w2 ++ '"' :: (v ++ '"' :: ';' :: S))) :=
    takeWs_append '=' _ hw1s pySpace_eq_false_eq
  have ht2 : takeWs (w2 ++ '"' :: (v ++ '"' :: ';' :: S)) =
      (w2, '"' :: (v ++ '"' :: ';' :: S)) :=
    takeWs_append '"' _ hw2s pySpace_quote_false
  have hg : greedyQuoted (v ++ '"' :: ';' :: S) = some (v, S) := greedyQuoted_head hv hS
  simp [bind, Option.bind, ht1, ht2, hg, headIs,
    isEmpty_false_of_ne hw1, isEmpty_false_of_ne hw2, hw1, hw2]

theorem findAll_eq_cons {attr m v r s : Str} {vpat : Option Str} (hs : s ≠ [])
    (h : matchAssignAt attr vpat s = some (m, v, r)) :
    findAll attr vpat s = (m, v) :: findAll attr vpat r := by
  cases s with
  | nil => exact absurd rfl hs
  | cons c rest => exact findAll_cons_some h

theorem findAll_append_skip {attr : Str} {vpat : Option Str} :
    ∀ {P t : Str}, (∀ i, i < P.length → isPrefixL attr ((P ++ t).drop i) = false) →
      findAll attr vpat (P ++ t) = findAll attr vpat t := by
  intro P
  induction P with
  | nil => intro t _; simp
  | cons a P' ih =>
    intro t h
    have hform : (a :: P') ++ t = a :: (P' ++ t) := by simp
    rw [hform]
    have h0 : isPrefixL attr (a :: (P' ++ t)) = false := by
      have := h 0 (by simp)
      simpa using this
    cases hm : matchAssignAt attr vpat (a :: (P' ++ t)) with
    | some x =>
      exfalso
      have hpre := matchAssignAt_attr_pre hm
      rw [hpre] at h0
      simp at h0
    | none =>
      rw [findAll_cons_none hm]
      apply ih
      intro i hi
      have := h (i + 1) (by simp; omega)
      rw [hform, List.drop_succ_cons] at this
      exact this

/-- The fixed part of an assignment line before its value: attribute,
whitespace, equals sign, whitespace, opening quote. -/
def assignPre (attr w1 w2 : Str) : Str := attr ++ w1 ++ '=' :: w2 ++ ['"']

/-- A whole assignment line as matched by the pattern: `assignPre`,
value, closing quote, semicolon. -/
def assignLine (attr w1 w2 v : Str) : Str := assignPre attr w1 w2 ++ v ++ ['"', ';']

theorem assignLine_assoc (attr w1 w2 v S : Str) :
    assignLine attr w1 w2 v ++ S =
      attr ++ (w1 ++ '=' :: (w2 ++ '"' :: (v ++ '"' :: ';' :: S))) := by
  simp [assignLine, assignPre]

theorem assignLine_ne_nil {attr w1 w2 v : Str} : assignLine attr w1 w2 v ≠ [] := by
  simp [assignLine, assignPre]

theorem assignLine_length_pos (attr w1 w2 v : Str) : 1 ≤ (assignLine attr w1 w2 v).length :=
  length_pos_of_ne assignLine_ne_nil

theorem findAll_structured {attr w1 w2 v P S : Str}
    (hw1 : w1 ≠ []) (hw1s : ∀ c ∈ w1, pySpace c = true)
    (hw2 : w2 ≠ []) (hw2s : ∀ c ∈ w2, pySpace c = true)
    (hv : '\n' ∉ v)
    (hS : hasCloseIn (S.takeWhile (fun c => c ≠ '\n')) = false)
    (hocc : occOnlyAt attr (P ++ (assignLine attr w1 w2 v ++ S)) P.length) :
    findAll attr none (P ++ (assignLine attr w1 w2 v ++ S)) =
      [(assignLine attr w1 w2 v, v)] := by
  have hskip : findAll attr none (P ++ (assignLine attr w1 w2 v ++ S)) =
      findAll attr none (assignLine attr w1 w2 v ++ S) := by
    apply findAll_append_skip
    intro i hi
    by_contra hcon
    simp only [Bool.not_eq_false] at hcon
    have hbound : i < (P ++ (assignLine attr w1 w2 v ++ S)).length := by
      simp only [List.length_append]
      omega
    have := hocc i hbound hcon
    omega
  rw [hskip]
  have hmatch : matchAssignAt attr none (assignLine attr w1 w2 v ++ S) =
      some (assignLine attr w1 w2 v, v, S) := by
    rw [assignLine_assoc]
    have hmh := @matchAssignAt_head attr w1 w2 v S hw1 hw1s hw2 hw2s hv hS
    rw [hmh]
    simp [assignLine, assignPre]
  rw [findAll_eq_cons (ne_nil_of_ne assignLine_ne_nil S) hmatch]
  have hSempty : findAll attr none S = [] := by
    apply findAll_empty_of_noOccur
    intro i hi
    by_contra hcon
    simp only [Bool.not_eq_false] at hcon
    have hdrop : (P ++ (assignLine attr w1 w2 v ++ S)).drop
        (P.length + ((assignLine attr w1 w2 v).length + i)) = S.drop i := by
      rw [drop_append_len, drop_append_len]
    have hbound : P.length + ((assignLine attr w1 w2 v).length + i) <
        (P ++ (assignLine attr w1 w2 v ++ S)).length := by
      simp only [List.length_append]
      omega
    have := hocc _ hbound (by rw [hdrop]; exact hcon)
    have hlp := assignLine_length_pos attr w1 w2 v
    omega
  rw [hSempty]

/-- Failure conditions of the script.  Each constructor corresponds to one
`raise` site of the Python source (`ValueError` unless noted otherwise in
the definitions below). -/
inductive Err where
  | attributeNotFound
  | ambiguousAttribute
  | noFetcher
  | multipleFetchers
  | formatOther
  | formatKeyError
  | urlNotPypi
  | bulkSkip
  | cargoDeps
  | noMatchingPname
  | invalidVersion
  | downgrade
  | noArtifact
  | noOldHash
  | noRev
  | noVersionFound
  | versionKeyError
deriving DecidableEq, Repr

/-- `_get_values`: all captured values of the assignment pattern for
`attribute` in `text`. -/
def get_values (attr text : Str) : List Str :=
  (findAll attr none text).map (fun p => p.2)

/-- `_get_unique_value`: the unique captured value, an error on zero or
several matches. -/
def get_unique_value (attr text : Str) : Except Err Str :=
  let values := get_values attr text
  if values.length > 1 then .error .ambiguousAttribute
  else
    match values with
    | [v] => .ok v
    | _ => .error .attributeNotFound

/-- `_get_line_and_value`: the unique (line, value) match of the assignment
pattern (with an expected value when `value = some lit`), an error on zero
or several matches. -/
def get_line_and_value (attr text : Str) (value : Option Str) :
    Except Err (Str × Str) :=
  let results := findAll attr value text
  if results.length > 1 then .error .ambiguousAttribute
  else
    match results with
    | [lv] => .ok lv
    | _ => .error .attributeNotFound

/-- `_replace_value`: replace the value of the unique matching assignment,
via two Python `str.replace` calls (`old_line.replace(old_value, value)`
then `text.replace(old_line, new_line)`). -/
def replace_value (attr value text : Str) (oldvalue : Option Str) :
    Except Err Str :=
  match get_line_and_value attr text oldvalue with
  | .error e => .error e
  | .ok (old_line, old_value) =>
    .ok (replaceAll old_line (replaceAll old_value value old_line) text)

instance instDecEqExcept {e a : Type} [DecidableEq e] [DecidableEq a] :
    DecidableEq (Except e a)
  | .error x, .error y =>
    if h : x = y then isTrue (by rw [h]) else isFalse (fun hc => h (Except.error.inj hc))
  | .error _, .ok _ => isFalse (fun hc => Except.noConfusion hc)
  | .ok _, .error _ => isFalse (fun hc => Except.noConfusion hc)
  | .ok x, .ok y =>
    if h : x = y then isTrue (by rw [h]) else isFalse (fun hc => h (Except.ok.inj hc))

theorem isPrefixL_mono {x y s : Str} (h : isPrefixL (x ++ y) s = true) :
    isPrefixL x s = true := by
  rcases isPrefixL_iff.1 h with ⟨r, rfl⟩
  exact isPrefixL_iff.2 ⟨y ++ r, by simp⟩

theorem assignLine_attr_split (attr w1 w2 v : Str) :
    assignLine attr w1 w2 v =
      attr ++ (w1 ++ '=' :: (w2 ++ '"' :: (v ++ '"' :: ';' :: []))) := by
  have h := assignLine_assoc attr w1 w2 v []
  simpa using h

theorem get_line_and_value_single {attr text : Str} {vpat : Option Str} {lv : Str × Str}
    (h : findAll attr vpat text = [lv]) :
    get_line_and_value attr text vpat = .ok lv := by
  unfold get_line_and_value
  rw [h]
  simp

theorem occOnlyAt_line {attr w1 w2 v P S : Str}
    (hocc : occOnlyAt attr (P ++ (assignLine attr w1 w2 v ++ S)) P.length) :
    occOnlyAt (assignLine attr w1 w2 v) (P ++ (assignLine attr w1 w2 v ++ S))
      P.length := by
  intro i hi hpre
  apply hocc i hi
  have hpre2 : isPrefixL (attr ++ (w1 ++ '=' :: (w2 ++ '"' :: (v ++ '"' :: ';' :: []))))
      ((P ++ (assignLine attr w1 w2 v ++ S)).drop i) = true := by
    rw [← assignLine_attr_split]
    exact hpre
  exact isPrefixL_mono hpre2

/-- C1 (amended), main theorem: on a text built from a prefix `P`, a
well-formed assignment line for `attr` with value `v`, and a suffix `S`,
where (i) the attribute occurs as a substring only at the assignment
(both before and after patching), (ii) the old value occurs inside its line
only at the value slot, (iii) the old value is non-empty, both values are
newline-free, and (iv) the rest of the assignment's own line in `S` has no
quote-semicolon pair: the text has exactly one matching assignment,
`_replace_value` rewrites exactly the value slot leaving `P` and `S`
byte-identical, and re-parsing with `_get_line_and_value` recovers exactly
the new value. -/
theorem C1_round_trip_amended (attr w1 w2 v newv P S : Str)
    (hw1 : w1 ≠ []) (hw1s : ∀ c ∈ w1, pySpace c = true)
    (hw2 : w2 ≠ []) (hw2s : ∀ c ∈ w2, pySpace c = true)
    (hv : '\n' ∉ v) (hvne : v ≠ []) (hnn : '\n' ∉ newv)
    (hS : hasCloseIn (S.takeWhile (fun c => c ≠ '\n')) = false)
    (hocc : occOnlyAt attr (P ++ (assignLine attr w1 w2 v ++ S)) P.length)
    (hoccNew : occOnlyAt attr (P ++ (assignLine attr w1 w2 newv ++ S)) P.length)
    (hv1 : occOnlyAt v (assignLine attr w1 w2 v) (assignPre attr w1 w2).length) :
    get_values attr (P ++ (assignLine attr w1 w2 v ++ S)) = [v] ∧
    replace_value attr newv (P ++ (assignLine attr w1 w2 v ++ S)) none =
      .ok (P ++ (assignLine attr w1 w2 newv ++ S)) ∧
    get_line_and_value attr (P ++ (assignLine attr w1 w2 newv ++ S)) none =
      .ok (assignLine attr w1 w2 newv, newv) := by
  have hfind := findAll_structured hw1 hw1s hw2 hw2s hv hS hocc
  have hfindNew := findAll_structured hw1 hw1s hw2 hw2s hnn hS hoccNew
  refine ⟨?_, ?_, ?_⟩
  · unfold get_values
    rw [hfind]
    rfl
  · unfold replace_value
    rw [get_line_and_value_single hfind]
    have hinner : replaceAll v newv (assignLine attr w1 w2 v) =
        assignLine attr w1 w2 newv := by
      have hform : assignLine attr w1 w2 v =
          assignPre attr w1 w2 ++ (v ++ ['"', ';']) := by
        simp [assignLine]
      rw [hform]
      rw [replaceAll_unique hvne (by rw [← hform]; exact hv1)]
      simp [assignLine]
    have houter : replaceAll (assignLine attr w1 w2 v) (assignLine attr w1 w2 newv)
        (P ++ (assignLine attr w1 w2 v ++ S)) =
        P ++ (assignLine attr w1 w2 newv ++ S) :=
      replaceAll_unique assignLine_ne_nil (occOnlyAt_line hocc)
    show Except.ok (replaceAll (assignLine attr w1 w2 v)
        (replaceAll v newv (assignLine attr w1 w2 v))
        (P ++ (assignLine attr w1 w2 v ++ S))) =
      Except.ok (P ++ (assignLine attr w1 w2 newv ++ S))
    rw [hinner, houter]
  · exact get_line_and_value_single hfindNew

/-- C1, counterexample to the claim as stated: the text
`version = "sio";` contains exactly one assignment matching the attribute
`version`, but replacing the value with `1.0` mangles the attribute name
itself (Python `str.replace` also rewrites the occurrence of `sio` inside
the word `version`), so re-parsing finds no assignment at all and recovers
nothing, and bytes outside the value slot change. -/
theorem C1_counterexample :
    get_values (("version").toList) (("version = \"sio\";").toList) = [("sio").toList] ∧
    replace_value (("version").toList) (("1.0").toList)
        (("version = \"sio\";").toList) none = .ok (("ver1.0n = \"1.0\";").toList) ∧
    get_line_and_value (("version").toList) (("ver1.0n = \"1.0\";").toList) none =
      .error .attributeNotFound := by
  refine ⟨by decide, ?_, by decide⟩
  decide

def C1wP : Str := ("  pname = \"x\";\n  ").toList

def C1wS : Str := ("\n").toList

/-- Witness for C1's amended theorem at a concrete definition text. -/
theorem C1_witness :
    get_values (("version").toList)
        (C1wP ++ (assignLine (("version").toList) [' '] [' '] (("1.0").toList) ++ C1wS)) =
      [("1.0").toList] ∧
    replace_value (("version").toList) (("2.0").toList)
        (C1wP ++ (assignLine (("version").toList) [' '] [' '] (("1.0").toList) ++ C1wS)) none =
      .ok (C1wP ++ (assignLine (("version").toList) [' '] [' '] (("2.0").toList) ++ C1wS)) ∧
    get_line_and_value (("version").toList)
        (C1wP ++ (assignLine (("version").toList) [' '] [' '] (("2.0").toList) ++ C1wS)) none =
      .ok (assignLine (("version").toList) [' '] [' '] (("2.0").toList), ("2.0").toList) :=
  C1_round_trip_amended (("version").toList) [' '] [' '] (("1.0").toList) (("2.0").toList)
    C1wP C1wS (by decide) (by decide) (by decide) (by decide) (by decide) (by decide)
    (by decide) (by decide) (by decide) (by decide) (by decide)

/-- C7: `_get_line_and_value` (with or without an expected value) and
`_get_unique_value` fail with the attribute-not-found error exactly when no
assignment matches and with the ambiguous-attribute error exactly when more
than one assignment matches, and `_replace_value` produces a replaced text
exactly when exactly one assignment matches. -/
theorem C7_exactly_one_match (attr : Str) (vpat : Option Str) (text newv : Str) :
    (get_line_and_value attr text vpat = .error .attributeNotFound ↔
      findAll attr vpat text = []) ∧
    (get_line_and_value attr text vpat = .error .ambiguousAttribute ↔
      2 ≤ (findAll attr vpat text).length) ∧
    ((∃ t, replace_value attr newv text vpat = .ok t) ↔
      (findAll attr vpat text).length = 1) ∧
    (get_unique_value attr text = .error .attributeNotFound ↔
      get_values attr text = []) ∧
    (get_unique_value attr text = .error .ambiguousAttribute ↔
      2 ≤ (get_values attr text).length) := by
  refine ⟨?_, ?_, ?_, ?_, ?_⟩
  · unfold get_line_and_value
    rcases hl : findAll attr vpat text with _ | ⟨a, _ | ⟨b, tl⟩⟩ <;> simp
  · unfold get_line_and_value
    rcases hl : findAll attr vpat text with _ | ⟨a, _ | ⟨b, tl⟩⟩ <;> simp <;> omega
  · unfold replace_value get_line_and_value
    rcases hl : findAll attr vpat text with _ | ⟨a, _ | ⟨b, tl⟩⟩ <;> simp
  · unfold get_unique_value
    rcases hl : get_values attr text with _ | ⟨a, _ | ⟨b, tl⟩⟩ <;> simp
  · unfold get_unique_value
    rcases hl : get_values attr text with _ | ⟨a, _ | ⟨b, tl⟩⟩ <;> simp <;> omega

/-!
## Version model

The script delegates version parsing and ordering to the external
`packaging` library (PEP 440), subclassed as `Version` to expose the
numeric release tuple and the raw string.  The embedding below models the
fragment of PEP 440 the updater relies on: an optional `v` prefix, a
dotted numeric release tuple, and an optional pre-release suffix
(`a`/`b`/`c`/`rc`/`alpha`/`beta`/`pre`/`preview`, optional separator,
optional number).  Strings outside this fragment (post/dev/local/epoch
forms) are treated as unparseable and are dropped from candidate sets,
as `_parse_versions` drops anything raising `InvalidVersion`.  Ordering
follows the PEP 440 comparison key on this fragment: release tuples are
compared with trailing zeros removed, and a pre-release sorts before the
corresponding final release (`a` before `b` before `rc`).
-/

/-- Normalized pre-release letters: `alpha`/`a`, `beta`/`b`,
`c`/`pre`/`preview`/`rc` (all normalized to `rc` by packaging). -/
inductive PreTag where
  | ta
  | tb
  | trc
deriving DecidableEq, Repr

def tagRank : PreTag → Nat
  | .ta => 0
  | .tb => 1
  | .trc => 2

/-- The Version data model: numeric release components, optional
pre-release, and the raw string kept verbatim (`raw_version`). -/
structure PVersion where
  release : List Nat
  pre : Option (PreTag × Nat)
  raw : Str
deriving DecidableEq, Repr

def digitVal (c : Char) : Option Nat :=
  if '0' ≤ c ∧ c ≤ '9' then some (c.toNat - '0'.toNat) else none

def takeDigits : Str → (List Nat × Str)
  | [] => ([], [])
  | c :: r =>
    match digitVal c with
    | some d =>
      let t := takeDigits r
      (d :: t.1, t.2)
    | none => ([], c :: r)

def natOfDigits (ds : List Nat) : Nat := ds.foldl (fun a d => a * 10 + d) 0

/-- Parse `N(.N)*`, consuming a dot only when a digit follows. -/
def parseRelease : Nat → Str → (List Nat × Str)
  | 0, s => ([], s)
  | fuel + 1, s =>
    let t := takeDigits s
    match t.2 with
    | '.' :: r2 =>
      match digitVal (r2.headD ' ') with
      | some _ =>
        let rest := parseRelease fuel r2
        (natOfDigits t.1 :: rest.1, rest.2)
      | none => ([natOfDigits t.1], t.2)
    | r2 => ([natOfDigits t.1], r2)

def isSep (c : Char) : Bool := c = '-' || c = '_' || c = '.'

def dropSep : Str → Str
  | c :: r => if isSep c then r else c :: r
  | [] => []

/-- Parse the pre-release letter, in the alternation order of packaging's
regular expression (`alpha|a|beta|b|preview|pre|c|rc`). -/
def parsePreTag (s : Str) : Option (PreTag × Str) :=
  match stripLit (("alpha").toList) s with
  | some r => some (.ta, r)
  | none =>
    match stripLit (("a").toList) s with
    | some r => some (.ta, r)
    | none =>
      match stripLit (("beta").toList) s with
      | some r => some (.tb, r)
      | none =>
        match stripLit (("b").toList) s with
        | some r => some (.tb, r)
        | none =>
          match stripLit (("preview").toList) s with
          | some r => some (.trc, r)
          | none =>
            match stripLit (("pre").toList) s with
            | some r => some (.trc, r)
            | none =>
              match stripLit (("c").toList) s with
              | some r => some (.trc, r)
              | none =>
                match stripLit (("rc").toList) s with
                | some r => some (.trc, r)
                | none => none

/-- Core parse of the modelled PEP 440 fragment; `none` corresponds to
`InvalidVersion`. -/
def parseCore (s : Str) : Option (List Nat × Option (PreTag × Nat)) :=
  let s0 := match s with
    | 'v' :: r => r
    | 'V' :: r => r
    | r => r
  match s0 with
  | [] => none
  | c :: _ =>
    match digitVal c with
    | none => none
    | some _ =>
      let rel := parseRelease s0.length s0
      match rel.2 with
      | [] => some (rel.1, none)
      | rest =>
        match parsePreTag (dropSep rest) with
        | none => none
        | some (tag, r2) =>
          match dropSep r2 with
          | [] => some (rel.1, some (tag, 0))
          | r3 =>
            let ds := takeDigits r3
            if ds.1.isEmpty ∨ ¬ ds.2.isEmpty then none
            else some (rel.1, some (tag, natOfDigits ds.1))

/-- `Version(s)`: parse, keeping the raw string verbatim. -/
def parseVersion (s : Str) : Option PVersion :=
  (parseCore s).map (fun p => ⟨p.1, p.2, s⟩)

/-- PEP 440 comparison key for the release tuple: trailing zeros
removed. -/
def relKey (v : PVersion) : List Nat := (v.release.reverse.dropWhile (fun x => x = 0)).reverse

/-- Lexicographic order on variable-length numeric tuples. -/
def lexLt : List Nat → List Nat → Bool
  | [], [] => false
  | [], _ :: _ => true
  | _ :: _, [] => false
  | a :: x, b :: y => a < b || (a = b && lexLt x y)

def preLt : Option (PreTag × Nat) → Option (PreTag × Nat) → Bool
  | some _, none => true
  | none, _ => false
  | some (t1, n1), some (t2, n2) =>
    tagRank t1 < tagRank t2 || (t1 = t2 && n1 < n2)

/-- PEP 440 `<` on the modelled fragment. -/
def pvLt (a b : PVersion) : Bool :=
  lexLt (relKey a) (relKey b) || (relKey a = relKey b && preLt a.pre b.pre)

/-- Equality of comparison keys (`==` of packaging versions). -/
def keyEq (a b : PVersion) : Bool :=
  relKey a = relKey b && a.pre = b.pre

/-- PEP 440 `<=` on the modelled fragment. -/
def pvLe (a b : PVersion) : Bool := pvLt a b || keyEq a b

def isPreV (v : PVersion) : Bool := v.pre.isSome

/-- The process-wide prerelease flag; `False` in the source. -/
def PRERELEASES : Bool := false

/-- Bump levels and `SEMVER`'s mapping to tuple indices. -/
inductive Target where
  | major
  | minor
  | patch
deriving DecidableEq, Repr

def SEMVER : Target → Nat
  | .major => 0
  | .minor => 1
  | .patch => 2

/-- `SpecifierSet(prereleases=flag).filter(versions)` with no specifier
clauses: drop pre-releases unless the flag allows them. -/
def specFilterEmpty (prereleases : Bool) (vs : List PVersion) : List PVersion :=
  if prereleases then vs else vs.filter (fun v => !isPreV v)

/-- `packaging`'s exclusive ordered comparison for a `<V` specifier
(`Specifier._compare_less_than`): strictly less in PEP 440 order, except
that a pre-release of the ceiling's own release is not matched when the
ceiling is not itself a pre-release. -/
def specLt (v ceil : PVersion) : Bool :=
  pvLt v ceil && !(!(isPreV ceil) && isPreV v && decide (relKey v = relKey ceil))

/-- `SpecifierSet(f"<{ceiling}").filter(versions)` (modelled from the
`packaging` library): keep candidates passing the `<` comparison; matching
pre-releases are returned only as a fallback when no final release
matched. -/
def specFilterLt (ceil : PVersion) (vs : List PVersion) : List PVersion :=
  let kept := vs.filter (fun v => specLt v ceil)
  let filtered := kept.filter (fun v => !isPreV v)
  let found := kept.filter (fun v => isPreV v)
  if filtered.isEmpty && !found.isEmpty then found else filtered

/-- Stable ascending insertion for Python `sorted`. -/
def insertAsc (v : PVersion) : List PVersion → List PVersion
  | [] => [v]
  | x :: xs => if pvLe v x then v :: x :: xs else x :: insertAsc v xs

/-- Python `sorted` (stable, ascending PEP 440 order). -/
def sortPV : List PVersion → List PVersion
  | [] => []
  | x :: xs => insertAsc x (sortPV xs)

/-- Python `max` on a list: first maximal element in iteration order;
`none` on an empty list (`max` raises `ValueError` there). -/
def pyMax : List PVersion → Option PVersion
  | [] => none
  | x :: xs => some (xs.foldl (fun b y => if pvLt b y then y else b) x)

/-- Increment the last component of a non-empty slice (`ceiling[-1] += 1`);
returns `[]` for the empty slice. -/
def bumpLast : List Nat → List Nat
  | [] => []
  | [x] => [x + 1]
  | x :: xs => x :: bumpLast xs

def joinDots : List Nat → Str
  | [] => []
  | [x] => (toString x).toList
  | x :: xs => (toString x).toList ++ '.' :: joinDots xs

/-- The exclusive ceiling of `_determine_latest_version`: the first
`SEMVER[target]` release components of the current version with the last
incremented, or no ceiling when the slice is empty. -/
def ceilingOf (cur : PVersion) (target : Target) : Option PVersion :=
  match cur.release.take (SEMVER target) with
  | [] => none
  | l => some ⟨bumpLast l, none, joinDots (bumpLast l)⟩

/-- `_determine_latest_version`: parse the current version, drop
unparseable candidates, filter pre-releases by the prerelease flag, filter
by the exclusive ceiling when there is one, and return the raw string of
the maximum of the sorted survivors.  `none` models the uncaught
`InvalidVersion` / empty-`max` `ValueError`. -/
def determine_latest_version (prereleases : Bool) (current : Str) (target : Target)
    (versions : List Str) : Option Str :=
  match parseVersion current with
  | none => none
  | some cur =>
    let parsed := versions.filterMap parseVersion
    let vs1 := specFilterEmpty prereleases parsed
    let vs2 :=
      match ceilingOf cur target with
      | none => vs1
      | some ceil => specFilterLt ceil vs1
    (pyMax (sortPV vs2)).map (fun v => v.raw)

theorem foldl_max_mem (xs : List PVersion) :
    ∀ b : PVersion,
      xs.foldl (fun b y => if pvLt b y then y else b) b = b ∨
      xs.foldl (fun b y => if pvLt b y then y else b) b ∈ xs := by
  induction xs with
  | nil => intro b; left; rfl
  | cons y ys ih =>
    intro b
    simp only [List.foldl_cons]
    rcases ih (if pvLt b y then y else b) with hcase | hcase
    · rw [hcase]
      by_cases hlt : pvLt b y = true
      · right; simp [hlt]
      · left; simp [hlt]
    · right; exact List.mem_cons_of_mem y hcase

theorem pyMax_mem {vs : List PVersion} {v : PVersion} (h : pyMax vs = some v) :
    v ∈ vs := by
  cases vs with
  | nil => simp [pyMax] at h
  | cons x xs =>
    simp only [pyMax] at h
    injection h with h
    rcases foldl_max_mem xs x with hcase | hcase
    · rw [← h, hcase]; simp
    · rw [← h]; exact List.mem_cons_of_mem x hcase

theorem insertAsc_mem {x v : PVersion} {l : List PVersion} :
    x ∈ insertAsc v l ↔ x = v ∨ x ∈ l := by
  induction l with
  | nil => simp [insertAsc]
  | cons y ys ih =>
    simp only [insertAsc]
    by_cases hle : pvLe v y = true
    · simp [hle]
    · simp only [if_neg hle, List.mem_cons, ih]
      tauto

theorem sortPV_mem {x : PVersion} {l : List PVersion} : x ∈ sortPV l ↔ x ∈ l := by
  induction l with
  | nil => simp [sortPV]
  | cons y ys ih =>
    simp only [sortPV, insertAsc_mem, ih, List.mem_cons]

theorem specFilterEmpty_mem {pr : Bool} {v : PVersion} {vs : List PVersion}
    (h : v ∈ specFilterEmpty pr vs) :
    v ∈ vs ∧ (pr = false → isPreV v = false) := by
  unfold specFilterEmpty at h
  cases pr with
  | true => exact ⟨h, by simp⟩
  | false =>
    rw [if_neg (by simp)] at h
    rcases List.mem_filter.1 h with ⟨hmem, hp⟩
    exact ⟨hmem, fun _ => by simpa using hp⟩

theorem specFilterLt_mem {ceil v : PVersion} {vs : List PVersion}
    (h : v ∈ specFilterLt ceil vs) :
    v ∈ vs ∧ specLt v ceil = true := by
  unfold specFilterLt at h
  have h2 : v ∈ (if (((vs.filter (fun v => specLt v ceil)).filter
        (fun v => !isPreV v)).isEmpty &&
        !((vs.filter (fun v => specLt v ceil)).filter (fun v => isPreV v)).isEmpty) = true then
      (vs.filter (fun v => specLt v ceil)).filter (fun v => isPreV v)
    else (vs.filter (fun v => specLt v ceil)).filter (fun v => !isPreV v)) := h
  split at h2
  · rcases List.mem_filter.1 h2 with ⟨hk, _⟩
    exact ⟨(List.mem_filter.1 hk).1, (List.mem_filter.1 hk).2⟩
  · rcases List.mem_filter.1 h2 with ⟨hk, _⟩
    exact ⟨(List.mem_filter.1 hk).1, (List.mem_filter.1 hk).2⟩

theorem parseVersion_raw {s : Str} {w : PVersion} (h : parseVersion s = some w) :
    w.raw = s := by
  unfold parseVersion at h
  cases hc : parseCore s with
  | none => rw [hc] at h; simp at h
  | some p =>
    rw [hc] at h
    injection h with h
    rw [← h]

theorem parsed_roundtrip {vs : List Str} {v : PVersion}
    (h : v ∈ vs.filterMap parseVersion) : parseVersion v.raw = some v := by
  rcases List.mem_filterMap.1 h with ⟨s, _, hs⟩
  rw [parseVersion_raw hs]
  exact hs

/-- C3: whenever `_determine_latest_version` returns a version, that
version parses and is strictly below (in PEP 440 order) the exclusive
ceiling built from the first `SEMVER[target]` release components of the
current version with the last incremented; when that slice is empty
(target = major) there is no ceiling and no constraint. -/
theorem C3_ceiling_bound (pr : Bool) (c : Str) (t : Target) (vs : List Str) (r : Str)
    (h : determine_latest_version pr c t vs = some r) :
    ∃ cur pv, parseVersion c = some cur ∧ parseVersion r = some pv ∧
      ∀ ce, ceilingOf cur t = some ce → pvLt pv ce = true := by
  unfold determine_latest_version at h
  cases hc : parseVersion c with
  | none => rw [hc] at h; simp at h
  | some cur =>
    rw [hc] at h
    simp only [Option.map_eq_some'] at h
    obtain ⟨vmax, hmax, hraw⟩ := h
    refine ⟨cur, vmax, rfl, ?_, ?_⟩
    · cases hce : ceilingOf cur t with
      | none =>
        rw [hce] at hmax
        have hmax2 : pyMax (sortPV (specFilterEmpty pr (vs.filterMap parseVersion))) =
            some vmax := hmax
        have hmem := sortPV_mem.1 (pyMax_mem hmax2)
        rw [← hraw]
        exact parsed_roundtrip (specFilterEmpty_mem hmem).1
      | some ceil =>
        rw [hce] at hmax
        have hmax2 : pyMax (sortPV (specFilterLt ceil
            (specFilterEmpty pr (vs.filterMap parseVersion)))) = some vmax := hmax
        have hmem := sortPV_mem.1 (pyMax_mem hmax2)
        rw [← hraw]
        exact parsed_roundtrip (specFilterEmpty_mem (specFilterLt_mem hmem).1).1
    · intro ce hcon
      cases hce : ceilingOf cur t with
      | none => rw [hce] at hcon; exact absurd hcon (by simp)
      | some ceil =>
        rw [hce] at hcon hmax
        injection hcon with hcon
        subst hcon
        have hmax2 : pyMax (sortPV (specFilterLt ceil
            (specFilterEmpty pr (vs.filterMap parseVersion)))) = some vmax := hmax
        have hmem := sortPV_mem.1 (pyMax_mem hmax2)
        have hlt := (specFilterLt_mem hmem).2
        unfold specLt at hlt
        simp only [Bool.and_eq_true] at hlt
        exact hlt.1

/-- Witness for C3 at the spec's scenario: current `1.2.3`, target minor,
candidates `1.2.4`, `1.3.0`, `2.0.0`, `1.3.0rc1` resolve to `1.3.0`. -/
theorem C3_witness :
    ∃ cur pv, parseVersion (("1.2.3").toList) = some cur ∧
      parseVersion (("1.3.0").toList) = some pv ∧
      ∀ ce, ceilingOf cur Target.minor = some ce → pvLt pv ce = true :=
  C3_ceiling_bound PRERELEASES (("1.2.3").toList) Target.minor
    [("1.2.4").toList, ("1.3.0").toList, ("2.0.0").toList, ("1.3.0rc1").toList]
    (("1.3.0").toList) (by decide)

/-- C4: with the process-wide prerelease flag at its default (disabled),
`_determine_latest_version` never returns a version flagged as a
pre-release, for any candidate set, current version and target. -/
theorem C4_no_prerelease (c : Str) (t : Target) (vs : List Str) (r : Str)
    (h : determine_latest_version PRERELEASES c t vs = some r) :
    ∃ pv, parseVersion r = some pv ∧ isPreV pv = false := by
  unfold determine_latest_version at h
  cases hc : parseVersion c with
  | none => rw [hc] at h; simp at h
  | some cur =>
    rw [hc] at h
    simp only [Option.map_eq_some'] at h
    obtain ⟨vmax, hmax, hraw⟩ := h
    cases hce : ceilingOf cur t with
    | none =>
      rw [hce] at hmax
      have hmax2 : pyMax (sortPV (specFilterEmpty PRERELEASES
          (vs.filterMap parseVersion))) = some vmax := hmax
      have hmem := sortPV_mem.1 (pyMax_mem hmax2)
      refine ⟨vmax, by rw [← hraw]; exact parsed_roundtrip (specFilterEmpty_mem hmem).1, ?_⟩
      exact (specFilterEmpty_mem hmem).2 rfl
    | some ceil =>
      rw [hce] at hmax
      have hmax2 : pyMax (sortPV (specFilterLt ceil (specFilterEmpty PRERELEASES
          (vs.filterMap parseVersion)))) = some vmax := hmax
      have hmem := sortPV_mem.1 (pyMax_mem hmax2)
      have h1 := (specFilterLt_mem hmem).1
      refine ⟨vmax, by rw [← hraw]; exact parsed_roundtrip (specFilterEmpty_mem h1).1, ?_⟩
      exact (specFilterEmpty_mem h1).2 rfl

/-- Witness for C4: the pre-release `1.3.0rc1` is skipped in favour of
`1.3.0`. -/
theorem C4_witness :
    ∃ pv, parseVersion (("1.3.0").toList) = some pv ∧ isPreV pv = false :=
  C4_no_prerelease (("1.2.3").toList) Target.minor
    [("1.2.4").toList, ("1.3.0").toList, ("2.0.0").toList, ("1.3.0rc1").toList]
    (("1.3.0").toList) (by decide)

/-!
## PyPI metadata model

A release metadata response maps version keys to lists of file entries;
each entry has a filename, a yanked flag, and a sha256 digest
(`release["digests"]["sha256"]`).  Dictionaries are modelled as
association lists in insertion order.
-/

structure PFile where
  filename : Str
  yanked : Bool
  sha256 : Str
deriving DecidableEq, Repr

/-- Python `str.endswith`. -/
def endsWithL (suf s : Str) : Bool := isPrefixL suf.reverse s.reverse

/-- `EXTENSIONS`: permitted file extensions, in source order. -/
def EXTENSIONS : List Str :=
  [("tar.gz").toList, ("tar.bz2").toList, ("tar").toList, ("zip").toList, (".whl").toList]

/-- The candidate set built by `_get_latest_version_pypi`: all release
version keys for which not every file is yanked. -/
def pypiCandidates (releases : List (Str × List PFile)) : List Str :=
  (releases.filter (fun p => !(p.2.all (fun f => f.yanked)))).map (fun p => p.1)

/-- The file-selection loop of `_get_latest_version_pypi`: the sha256 of
the first file whose name ends with the extension, else `None`. -/
def selectSha256 (extension : Str) : List PFile → Option Str
  | [] => none
  | f :: rest =>
    if endsWithL extension f.filename then some f.sha256
    else selectSha256 extension rest

/-- Dictionary lookup `json["releases"][version]`. -/
def lookupRel (releases : List (Str × List PFile)) (version : Str) : Option (List PFile) :=
  match releases with
  | [] => none
  | (k, fs) :: rest => if k = version then some fs else lookupRel rest version

/-- `_get_latest_version_pypi` (with the HTTP fetch of the metadata given
as `releases`): build the candidate set, resolve the latest version, look
its files up and select a checksum.  The pair is (version, sha256-or-none);
the source's third component (tag prefix) is always `None` here. -/
def get_latest_version_pypi (prereleases : Bool) (releases : List (Str × List PFile))
    (extension current : Str) (target : Target) : Except Err (Str × Option Str) :=
  match determine_latest_version prereleases current target (pypiCandidates releases) with
  | none => .error .noVersionFound
  | some version =>
    match lookupRel releases version with
    | none => .error .versionKeyError
    | some files => .ok (version, selectSha256 extension files)

/-- Modelled from the spec's words for claim C6 only: try the extensions
of `EXTENSIONS` in their fixed preference order and return the checksum of
the first listed file matching the first extension that matches any file.
This is the behaviour the claim asserts; the source never consults
`EXTENSIONS`. -/
def preferenceSelect (files : List PFile) : Option Str :=
  EXTENSIONS.findSome? (fun e => selectSha256 e files)

/-- Substring test (Python `in`). -/
def containsSub (pat s : Str) : Bool :=
  (List.range (s.length + 1)).any (fun i => isPrefixL pat (s.drop i))

/-- The keys of `FETCHERS`, in dictionary insertion order. -/
def FETCHERS_KEYS : List Str :=
  [("fetchFromGitHub").toList, ("fetchPypi").toList, ("fetchurl").toList]

def fetcherMarker (f : Str) : Str := ("src = ").toList ++ f

/-- `_determine_fetcher`: count occurrences of the fetch-call markers;
exactly one must be present; then return the first fetcher whose marker
occurs.  The final fallback is unreachable (a count of one implies some
marker occurs). -/
def determine_fetcher (text : Str) : Except Err Str :=
  let n := (FETCHERS_KEYS.map (fun f => pyCount (fetcherMarker f) text)).foldl
    (fun a b => a + b) 0
  if n = 0 then .error .noFetcher
  else if n > 1 then .error .multipleFetchers
  else
    match FETCHERS_KEYS.find? (fun f => containsSub (fetcherMarker f) text) with
    | some f => .ok f
    | none => .error .noFetcher

/-- Last index of a character (Python `str.rfind`; `none` for -1). -/
def rfindPos (c : Char) : Str → Option Nat
  | [] => none
  | d :: r =>
    match rfindPos c r with
    | some i => some (i + 1)
    | none => if d = c then some 0 else none

/-- The extension part of Python `os.path.splitext` (posix), including the
leading dot; `[]` when there is none. -/
def splitextExt (p : Str) : Str :=
  match rfindPos '.' p with
  | none => []
  | some d =>
    let start := match rfindPos '/' p with
      | none => 0
      | some s0 => s0 + 1
    if d < start then []
    else if ((p.drop start).take (d - start)).any (fun c => c ≠ '.') then p.drop d
    else []

def FORMATS : List (Str × Str) :=
  [(("setuptools").toList, ("tar.gz").toList),
   (("wheel").toList, ("whl").toList),
   (("pyproject").toList, ("tar.gz").toList),
   (("flit").toList, ("tar.gz").toList)]

def lookupStr (l : List (Str × Str)) (k : Str) : Option Str :=
  match l with
  | [] => none
  | (k0, v) :: rest => if k0 = k then some v else lookupStr rest k

/-- `_determine_extension`.  For `fetchPypi` the `format`/`extension`
attributes are read with the `ValueError`s of `_get_unique_value` caught
(`none`); a `format = "other"` without an explicit extension raises, an
unknown format raises `KeyError` (uncaught in the source).  For
`fetchurl` the extension comes from `os.path.splitext` on the unique
`url`, which must point at PyPI.  For `fetchFromGitHub` it is `tar.gz`. -/
def determine_extension (text fetcher : Str) : Except Err Str :=
  if fetcher = ("fetchPypi").toList then
    let src_format := (get_unique_value (("format").toList) text).toOption
    let ext := (get_unique_value (("extension").toList) text).toOption
    match ext with
    | some e => .ok e
    | none =>
      let fmt := match src_format with
        | none => ("setuptools").toList
        | some f => f
      if fmt = ("other").toList then .error .formatOther
      else
        match lookupStr FORMATS fmt with
        | some e => .ok e
        | none => .error .formatKeyError
  else if fetcher = ("fetchurl").toList then
    match get_unique_value (("url").toList) text with
    | .error e => .error e
    | .ok url =>
      if containsSub (("pypi").toList) url then .ok (splitextExt url)
      else .error .urlNotPypi
  else if fetcher = ("fetchFromGitHub").toList then .ok (("tar.gz").toList)
  else .error .formatKeyError

theorem all_yanked_false_exists {fs : List PFile}
    (h : fs.all (fun f => f.yanked) = false) : ∃ f ∈ fs, f.yanked = false := by
  induction fs with
  | nil => simp [List.all_nil] at h
  | cons g gs ih =>
    simp only [List.all_cons, Bool.and_eq_false_iff] at h
    rcases h with h | h
    · exact ⟨g, by simp, h⟩
    · rcases ih h with ⟨f, hf, hy⟩
      exact ⟨f, by simp [hf], hy⟩

theorem exists_false_all_yanked {fs : List PFile} {f : PFile} (hf : f ∈ fs)
    (hy : f.yanked = false) : fs.all (fun f => f.yanked) = false := by
  cases hall : fs.all (fun f => f.yanked) with
  | false => rfl
  | true =>
    have := List.all_eq_true.1 hall f hf
    simp only [hy] at this
    exact absurd this (by simp)

/-- C5 (amended): the candidate set handed to the resolver by
`_get_latest_version_pypi` contains exactly the release version keys
having at least one file not marked yanked; a version all of whose files
are yanked (in particular one with no files at all) is excluded. -/
theorem C5_candidates_amended (rels : List (Str × List PFile)) (v : Str) :
    v ∈ pypiCandidates rels ↔
      ∃ fs, (v, fs) ∈ rels ∧ ∃ f ∈ fs, f.yanked = false := by
  unfold pypiCandidates
  constructor
  · intro h
    rcases List.mem_map.1 h with ⟨p, hp, hv⟩
    rcases List.mem_filter.1 hp with ⟨hmem, hall⟩
    have hall2 : p.2.all (fun f => f.yanked) = false := by simpa using hall
    refine ⟨p.2, ?_, all_yanked_false_exists hall2⟩
    rw [← hv]
    cases p
    exact hmem
  · rintro ⟨fs, hmem, f, hf, hy⟩
    apply List.mem_map.2
    refine ⟨(v, fs), List.mem_filter.2 ⟨hmem, ?_⟩, rfl⟩
    simp [exists_false_all_yanked hf hy]

def c5files : List PFile :=
  [⟨("pkg-1.0.tar.gz").toList, true, ("s1").toList⟩,
   ⟨("pkg-1.0-py3-none-any.whl").toList, false, ("s2").toList⟩]

/-- C5, counterexample to the claim as stated: version `1.0` has a yanked
file, so by the claim it must be excluded from the candidate set, yet the
code includes it (the code only excludes a version when *all* of its files
are yanked). -/
theorem C5_counterexample :
    ((("1.0").toList, c5files) ∈ [((("1.0").toList), c5files)]) ∧
    (∃ f ∈ c5files, f.yanked = true) ∧
    (("1.0").toList ∈ pypiCandidates [((("1.0").toList), c5files)]) := by
  refine ⟨by simp, ?_, by decide⟩
  exact ⟨⟨("pkg-1.0.tar.gz").toList, true, ("s1").toList⟩, by simp [c5files], rfl⟩

/-- C6 (amended): the checksum returned by `_get_latest_version_pypi` for
the resolved version is that of the first listed file whose name ends with
the single extension determined for the definition; the `EXTENSIONS`
preference list is never consulted. -/
theorem C6_selection_amended (ext : Str) (files : List PFile) (pr : Bool)
    (rels : List (Str × List PFile)) (cur : Str) (t : Target) (v : Str) (s : Option Str) :
    (selectSha256 ext files =
      (files.find? (fun f => endsWithL ext f.filename)).map PFile.sha256) ∧
    (get_latest_version_pypi pr rels ext cur t = .ok (v, s) →
      ∃ fs, lookupRel rels v = some fs ∧ s = selectSha256 ext fs) := by
  constructor
  · induction files with
    | nil => simp [selectSha256]
    | cons f rest ih =>
      by_cases hend : endsWithL ext f.filename = true
      · simp [selectSha256, List.find?, hend]
      · simp only [Bool.not_eq_true] at hend
        simp [selectSha256, List.find?, hend, ih]
  · intro h
    unfold get_latest_version_pypi at h
    cases hd : determine_latest_version pr cur t (pypiCandidates rels) with
    | none => rw [hd] at h; exact absurd h (by simp)
    | some version =>
      rw [hd] at h
      have h2 : (match lookupRel rels version with
          | none => Except.error Err.versionKeyError
          | some files => Except.ok (version, selectSha256 ext files)) =
          Except.ok (v, s) := h
      cases hl : lookupRel rels version with
      | none => rw [hl] at h2; exact absurd h2 (by simp)
      | some files2 =>
        rw [hl] at h2
        injection h2 with h2
        injection h2 with h1 h3
        subst h1
        exact ⟨files2, hl, h3.symm⟩

def c6files : List PFile :=
  [⟨("pkg-1.0.zip").toList, false, ("AAA").toList⟩,
   ⟨("pkg-1.0.tar.gz").toList, false, ("BBB").toList⟩]

/-- C6, counterexample to the claim as stated: a definition declaring
`extension = "zip"` determines the single extension `zip`; the code then
returns the checksum of the first `.zip` file, while the claimed
preference order (`tar.gz` before `zip`) would return the `.tar.gz`
file's checksum.  The two selections disagree on this metadata. -/
theorem C6_counterexample :
    determine_extension (("  extension = \"zip\";\n").toList) (("fetchPypi").toList) =
      .ok (("zip").toList) ∧
    get_latest_version_pypi false [((("1.0").toList), c6files)] (("zip").toList)
        (("0.9").toList) Target.major = .ok ((("1.0").toList), some (("AAA").toList)) ∧
    preferenceSelect c6files = some (("BBB").toList) ∧
    ("AAA").toList ≠ ("BBB").toList := by
  refine ⟨by decide, by decide, by decide, by decide⟩

/-- Witness for C6's amended theorem at the counterexample metadata. -/
theorem C6_witness :
    ∃ fs, lookupRel [((("1.0").toList), c6files)] (("1.0").toList) = some fs ∧
      some (("AAA").toList) = selectSha256 (("zip").toList) fs :=
  (C6_selection_amended (("zip").toList) c6files false [((("1.0").toList), c6files)]
    (("0.9").toList) Target.major (("1.0").toList) (some (("AAA").toList))).2 (by decide)

/-!
## The fetchFromGitHub rewrite of `_update_package` (source lines 489-510)

The rev/tag pattern `((?:rev|tag)\s+=\s+[^;]*;)` is matched by
`revMatchAt`/`revFindAll`; the code takes the first match, rewrites every
occurrence of that matched string to a templated tag line, then rewrites
every occurrence of the exact bytes quote-dollar-brace-version-brace-
quote-semicolon to `version;`, and finally rewrites a changelog
assignment if one matches `changelog = "[^"]+";`.
-/

/-- The `rev|tag` alternation at the head of `s`, in pattern order. -/
def revKw (s : Str) : Option (Str × Str) :=
  match stripLit (("rev").toList) s with
  | some r => some ((("rev").toList), r)
  | none =>
    match stripLit (("tag").toList) s with
    | some r => some ((("tag").toList), r)
    | none => none

theorem revKw_eq {s : Str} {k s1 : Str} (h : revKw s = some (k, s1)) :
    s = k ++ s1 ∧ k ≠ [] := by
  unfold revKw at h
  cases hrev : stripLit (("rev").toList) s with
  | some r0 =>
    rw [hrev] at h
    injection h with h
    injection h with h1 h2
    subst h1 h2
    exact ⟨stripLit_eq hrev, by decide⟩
  | none =>
    rw [hrev] at h
    cases htag : stripLit (("tag").toList) s with
    | some r0 =>
      rw [htag] at h
      injection h with h
      injection h with h1 h2
      subst h1 h2
      exact ⟨stripLit_eq htag, by decide⟩
    | none => rw [htag] at h; exact absurd h (by simp)

/-- One attempt of the rev/tag pattern at the head of `s`: `rev` or `tag`
(alternation in that order), whitespace, equals sign, whitespace, then
greedy `[^;]*` (which may span newlines) and a semicolon.  Returns
(whole match, remainder). -/
def revMatchAt (s : Str) : Option (Str × Str) := do
  let kw ← revKw s
  let t1 := takeWs kw.2
  if t1.1.isEmpty then none else do
  let s3 ← headIs '=' t1.2
  let t2 := takeWs s3
  if t2.1.isEmpty then none else do
  let r ← headIs ';' (t2.2.dropWhile (fun c => c ≠ ';'))
  some (kw.1 ++ t1.1 ++ '=' :: t2.1 ++ t2.2.takeWhile (fun c => c ≠ ';') ++ [';'], r)

theorem revMatchAt_eq {s m r : Str} (h : revMatchAt s = some (m, r)) :
    s = m ++ r ∧ m ≠ [] := by
  unfold revMatchAt at h
  simp only [Option.bind_eq_some, bind, Option.ite_none_left_eq_some] at h
  obtain ⟨kw, hkw, hw1, s3, hs3, hw2, r2, hr2, hout⟩ := h
  obtain ⟨hs, hkne⟩ := revKw_eq (by rw [hkw] : revKw s = some (kw.1, kw.2))
  obtain ⟨w1, s2a, htw1⟩ : ∃ a b, takeWs kw.2 = (a, b) := ⟨_, _, rfl⟩
  obtain ⟨w2, s4a, htw2⟩ : ∃ a b, takeWs s3 = (a, b) := ⟨_, _, rfl⟩
  rw [htw1] at hw1 hs3
  rw [htw2] at hw2 hr2
  injection hout with hout
  injection hout with h1 h2
  rw [htw1, htw2] at h1
  subst h2
  have he2 : w1 ++ '=' :: s3 = kw.2 := by
    have ht := takeWs_eq kw.2
    rw [htw1] at ht
    rw [← headIs_eq hs3]
    exact ht
  have he3 : w2 ++ s4a = s3 := by
    have ht := takeWs_eq s3
    rw [htw2] at ht
    exact ht
  have he4 : s4a.takeWhile (fun c => c ≠ ';') ++ ';' :: r2 = s4a := by
    have hsp : s4a.takeWhile (fun c => c ≠ ';') ++ s4a.dropWhile (fun c => c ≠ ';') = s4a :=
      List.takeWhile_append_dropWhile _ _
    rw [headIs_eq hr2] at hsp
    exact hsp
  refine ⟨?_, by rw [← h1]; simp [hkne]⟩
  rw [hs, ← he2, ← he3, ← he4, ← h1]
  simp

/-- Fuel-driven `re.findall` scan for the rev/tag pattern. -/
def revFindAllF : Nat → Str → List Str
  | 0, _ => []
  | _ + 1, [] => []
  | fuel + 1, c :: rest =>
    match revMatchAt (c :: rest) with
    | some (m, r) => m :: revFindAllF fuel r
    | none => revFindAllF fuel rest

/-- `re.findall` for the rev/tag pattern. -/
def revFindAll (s : Str) : List Str := revFindAllF s.length s

theorem revFindAllF_fuel :
    ∀ {f1 : Nat} {s : Str} {f2 : Nat}, s.length ≤ f1 → s.length ≤ f2 →
      revFindAllF f1 s = revFindAllF f2 s := by
  intro f1
  induction f1 with
  | zero =>
    intro s f2 h1 _
    have hs : s = [] := List.eq_nil_of_length_eq_zero (Nat.le_zero.1 h1)
    subst hs
    cases f2 <;> rfl
  | succ f1' ih =>
    intro s f2 h1 h2
    cases s with
    | nil => cases f2 <;> rfl
    | cons c rest =>
      cases f2 with
      | zero => simp at h2
      | succ f2' =>
        simp only [revFindAllF]
        have hrest1 : rest.length ≤ f1' := by
          simp only [List.length_cons] at h1; omega
        have hrest2 : rest.length ≤ f2' := by
          simp only [List.length_cons] at h2; omega
        cases hm : revMatchAt (c :: rest) with
        | some x =>
          obtain ⟨m, r⟩ := x
          obtain ⟨hsplit, hne⟩ := revMatchAt_eq hm
          have hr : r.length ≤ rest.length := by
            have hlen : (c :: rest).length = m.length + r.length := by
              rw [hsplit, List.length_append]
            have hmp := length_pos_of_ne hne
            simp only [List.length_cons] at hlen
            omega
          show m :: revFindAllF f1' r = m :: revFindAllF f2' r
          rw [ih (Nat.le_trans hr hrest1) (Nat.le_trans hr hrest2)]
        | none =>
          show revFindAllF f1' rest = revFindAllF f2' rest
          rw [ih hrest1 hrest2]

theorem revFindAll_cons_some {m r : Str} {c : Char} {rest : Str}
    (h : revMatchAt (c :: rest) = some (m, r)) :
    revFindAll (c :: rest) = m :: revFindAll r := by
  obtain ⟨hsplit, hne⟩ := revMatchAt_eq h
  have hr : r.length ≤ rest.length := by
    have hlen : (c :: rest).length = m.length + r.length := by
      rw [hsplit, List.length_append]
    have hmp := length_pos_of_ne hne
    simp only [List.length_cons] at hlen
    omega
  unfold revFindAll
  simp only [List.length_cons, revFindAllF, h]
  rw [revFindAllF_fuel hr (Nat.le_refl r.length)]

theorem revFindAll_cons_none {c : Char} {rest : Str}
    (h : revMatchAt (c :: rest) = none) :
    revFindAll (c :: rest) = revFindAll rest := by
  unfold revFindAll
  simp only [List.length_cons, revFindAllF, h]

/-- One attempt of the changelog pattern `changelog = "[^"]+";` at the
head of `s` (literal spaces, a non-empty run of non-quote characters).
Returns the whole matched string. -/
def clMatchAt (s : Str) : Option Str :=
  match stripLit (("changelog = \"").toList) s with
  | none => none
  | some s1 =>
    let run := s1.takeWhile (fun c => c ≠ '"')
    if run.isEmpty then none
    else
      match s1.dropWhile (fun c => c ≠ '"') with
      | '"' :: ';' :: _ => some ((("changelog = \"").toList) ++ run ++ ['"', ';'])
      | _ => none

/-- `re.search` of the changelog pattern: leftmost match. -/
def clSearch : Str → Option Str
  | [] => none
  | c :: rest =>
    match clMatchAt (c :: rest) with
    | some m => some m
    | none => clSearch rest


/-- After the literal `src`: one any-but-newline character, then the
literal `rev` and closing brace. -/
def clCoreTail2 : Str → Option Str
  | [] => none
  | x :: s3 =>
    if x = '\n' then none
    else
      match stripLit (("rev\x7d").toList) s3 with
      | some r => some r
      | none => none

theorem clCoreTail2_consumes {s2 u : Str} (h : clCoreTail2 s2 = some u) :
    ∃ x s3, s2 = x :: s3 ∧ s3 = (("rev\x7d").toList) ++ u := by
  cases s2 with
  | nil => simp [clCoreTail2] at h
  | cons x s3 =>
    simp only [clCoreTail2] at h
    by_cases hx : x = '\n'
    · rw [if_pos hx] at h
      exact absurd h (by simp)
    · rw [if_neg hx] at h
      cases h6 : stripLit (("rev\x7d").toList) s3 with
      | none => rw [h6] at h; exact absurd h (by simp)
      | some r0 =>
        rw [h6] at h
        have h7 : (some r0 : Option Str) = some u := h
        injection h7 with h7
        subst h7
        exact ⟨x, s3, rfl, stripLit_eq h6⟩

/-- The alternation tail of the substitution pattern after the dollar and
opening brace: `version` or `src.rev` (the dot matching any character but
a newline), then the closing brace. -/
def clCoreTail (s1 : Str) : Option Str :=
  match stripLit (("version\x7d").toList) s1 with
  | some r => some r
  | none =>
    match stripLit (("src").toList) s1 with
    | none => none
    | some s2 => clCoreTail2 s2

/-- The core `\$\{(version|src.rev)\}` of the changelog substitution
pattern at the head of `s`. -/
def clCoreAt (s : Str) : Option Str :=
  match stripLit (['$', '\x7b']) s with
  | none => none
  | some s1 => clCoreTail s1

/-- The full substitution pattern `v?\$\{(version|src.rev)\}`: the
optional `v` is tried first (greedy), falling back to the bare core. -/
def clPatAt (s : Str) : Option Str :=
  match s with
  | 'v' :: rest =>
    match clCoreAt rest with
    | some r => some r
    | none => clCoreAt ('v' :: rest)
  | _ => clCoreAt s

theorem clCoreTail_consumes {s1 u : Str} (h : clCoreTail s1 = some u) :
    ∃ m, s1 = m ++ u ∧ m ≠ [] := by
  unfold clCoreTail at h
  cases h2 : stripLit (("version\x7d").toList) s1 with
  | some r2 =>
    rw [h2] at h
    injection h with h
    subst h
    exact ⟨("version\x7d").toList, stripLit_eq h2, by decide⟩
  | none =>
    rw [h2] at h
    cases h3 : stripLit (("src").toList) s1 with
    | none => rw [h3] at h; exact absurd h (by simp)
    | some s2 =>
      rw [h3] at h
      have h4 : clCoreTail2 s2 = some u := h
      rcases clCoreTail2_consumes h4 with ⟨x, s3, hs2, hs3⟩
      refine ⟨("src").toList ++ x :: ("rev\x7d").toList, ?_, by simp⟩
      rw [stripLit_eq h3, hs2, hs3]
      simp

theorem clCoreAt_consumes {t u : Str} (h : clCoreAt t = some u) :
    ∃ m, t = m ++ u ∧ m ≠ [] := by
  unfold clCoreAt at h
  cases h1 : stripLit (['$', '\x7b']) t with
  | none => rw [h1] at h; exact absurd h (by simp)
  | some s1 =>
    rw [h1] at h
    have hc2 : clCoreTail s1 = some u := h
    rcases clCoreTail_consumes hc2 with ⟨m, hm, hmne⟩
    exact ⟨['$', '\x7b'] ++ m, by rw [stripLit_eq h1, hm]; simp, by simp⟩

theorem clPatAt_consumes {s r : Str} (h : clPatAt s = some r) :
    ∃ m, s = m ++ r ∧ m ≠ [] := by
  cases s with
  | nil =>
    unfold clPatAt at h
    exact clCoreAt_consumes h
  | cons c rest =>
    by_cases hv : c = 'v'
    · subst hv
      unfold clPatAt at h
      have h3 : (match clCoreAt rest with
          | some r => some r
          | none => clCoreAt ('v' :: rest)) = some r := h
      cases hc1 : clCoreAt rest with
      | some r2 =>
        rw [hc1] at h3
        injection h3 with h3
        subst h3
        rcases clCoreAt_consumes hc1 with ⟨m, hm, hmne⟩
        exact ⟨'v' :: m, by simp [hm], by simp⟩
      | none =>
        rw [hc1] at h3
        exact clCoreAt_consumes h3
    · have h2 : clPatAt (c :: rest) = clCoreAt (c :: rest) := by
        unfold clPatAt
        split
        · rename_i heq
          exfalso
          injection heq with hh1 hh2
          exact hv hh1
        · rfl
      rw [h2] at h
      exact clCoreAt_consumes h

/-- The replacement string of the changelog substitution
(dollar-brace-src.tag-brace). -/
def srcTagStr : Str := ['$', '\x7b', 's', 'r', 'c', '.', 't', 'a', 'g', '\x7d']

/-- Fuel-driven `re.sub` scan replacing every non-overlapping occurrence
of the substitution pattern by `srcTagStr`. -/
def clSubF : Nat → Str → Str
  | 0, _ => []
  | _ + 1, [] => []
  | fuel + 1, c :: rest =>
    match clPatAt (c :: rest) with
    | some r => srcTagStr ++ clSubF fuel r
    | none => c :: clSubF fuel rest

/-- `re.sub(r"v?\$\{(version|src.rev)\}", "${src.tag}", s)`. -/
def clSub (s : Str) : Str := clSubF s.length s

/-- The changelog rewrite: search for the changelog assignment; when it
matches, substitute tag references inside the matched string and replace
every occurrence of the old matched string in the text. -/
def changelog_rewrite (text : Str) : Str :=
  match clSearch text with
  | none => text
  | some cl_old => replaceAll cl_old (clSub cl_old) text

/-- The templated tag line `tag = "{prefix}${version}";` written by the
fetchFromGitHub rewrite. -/
def tagLineFor (pfx : Str) : Str :=
  ("tag = \"").toList ++ pfx ++ ("$\x7bversion\x7d\";").toList

/-- The literal bytes quote-dollar-brace-version-brace-quote-semicolon
rewritten to a bare `version;` when no prefix was discovered. -/
def quotedVersionPat : Str := ("\"$\x7bversion\x7d\";").toList

def bareVersionStr : Str := ("version;").toList

/-- The fetchFromGitHub rewrite of `_update_package` (lines 489-510):
find the rev/tag assignments, fail when there are none, otherwise replace
every occurrence of the first match by the templated tag line, then
replace every occurrence of the quoted version pattern by a bare version
reference, then rewrite the changelog assignment. -/
def github_rewrite (pfx text : Str) : Except Err Str :=
  match revFindAll text with
  | [] => .error .noRev
  | m :: _ =>
    let t1 := replaceAll m (tagLineFor pfx) text
    let t2 := replaceAll quotedVersionPat bareVersionStr t1
    .ok (changelog_rewrite t2)

/-- Suffix test. -/
def isSuffixL (p s : Str) : Bool := isPrefixL p.reverse s.reverse

/-- The final form of the rewritten rev/tag assignment: the bare version
reference if no prefix was discovered, else the templated tag line. -/
def finalTagFor (pfx : Str) : Str :=
  if pfx = [] then ("tag = version;").toList else tagLineFor pfx

/-- C2 (amended), main theorem: on a text made of a prefix `P`, the first
rev/tag match `m`, and a tail `T`, where `m` occurs only at the match
position and every occurrence of the exact bytes of the
quote-dollar-brace-version-brace-quote-semicolon pattern in the rewritten
text is the one inside the new tag line (when the discovered prefix is
empty) or absent (when it is not): first, when no changelog assignment
matches the rewritten text, the rewrite yields exactly `P`, then the
rewritten tag assignment, then `T`, with `P` and `T` byte-identical;
second, when the leftmost changelog match of the rewritten text is an
assignment `cl` sitting between a middle region `M` and a suffix `S` and
occurring only there, the rewrite yields `P`, the rewritten tag
assignment, `M`, the changelog assignment with its version references
retargeted to the src tag, and `S`, with `P`, `M` and `S` byte-identical.
In both cases every byte outside the rewritten rev/tag assignment and the
changelog assignment is unchanged. -/
theorem C2_github_rewrite_amended (pfx P m T : Str)
    (hmne : m ≠ [])
    (hfind : (revFindAll (P ++ (m ++ T))).head? = some m)
    (hmOnce : occOnlyAt m (P ++ (m ++ T)) P.length)
    (hpatE : pfx = [] →
      occOnlyAt quotedVersionPat (P ++ (tagLineFor pfx ++ T)) (P.length + 6))
    (hpatN : pfx ≠ [] → noOccur quotedVersionPat (P ++ (tagLineFor pfx ++ T))) :
    (clSearch (P ++ (finalTagFor pfx ++ T)) = none →
      github_rewrite pfx (P ++ (m ++ T)) = .ok (P ++ (finalTagFor pfx ++ T))) ∧
    (∀ M cl S, T = M ++ (cl ++ S) → cl ≠ [] →
      clSearch (P ++ (finalTagFor pfx ++ T)) = some cl →
      occOnlyAt cl (P ++ (finalTagFor pfx ++ T))
        (P.length + ((finalTagFor pfx).length + M.length)) →
      github_rewrite pfx (P ++ (m ++ T)) =
        .ok (P ++ (finalTagFor pfx ++ (M ++ (clSub cl ++ S))))) := by
  obtain ⟨rest, hcons⟩ : ∃ rest, revFindAll (P ++ (m ++ T)) = m :: rest := by
    cases hr : revFindAll (P ++ (m ++ T)) with
    | nil => rw [hr] at hfind; exact absurd hfind (by simp)
    | cons m0 rest =>
      rw [hr] at hfind
      simp only [List.head?] at hfind
      injection hfind with hfind
      exact ⟨rest, by rw [hfind]⟩
  have hgw : github_rewrite pfx (P ++ (m ++ T)) =
      .ok (changelog_rewrite (P ++ (finalTagFor pfx ++ T))) := by
    unfold github_rewrite
    rw [hcons]
    show Except.ok (changelog_rewrite (replaceAll quotedVersionPat bareVersionStr
      (replaceAll m (tagLineFor pfx) (P ++ (m ++ T))))) = _
    have h1 : replaceAll m (tagLineFor pfx) (P ++ (m ++ T)) =
        P ++ (tagLineFor pfx ++ T) :=
      replaceAll_unique hmne hmOnce
    rw [h1]
    have h2 : replaceAll quotedVersionPat bareVersionStr (P ++ (tagLineFor pfx ++ T)) =
        P ++ (finalTagFor pfx ++ T) := by
      by_cases hpfx : pfx = []
      · subst hpfx
        have hsplit : tagLineFor [] = ("tag = ").toList ++ quotedVersionPat := by decide
        have hassoc : P ++ (tagLineFor [] ++ T) =
            (P ++ ("tag = ").toList) ++ (quotedVersionPat ++ T) := by
          rw [hsplit]
          simp
        have hocc2 : occOnlyAt quotedVersionPat
            ((P ++ ("tag = ").toList) ++ (quotedVersionPat ++ T))
            (P ++ ("tag = ").toList).length := by
          rw [← hassoc]
          have hlen : (P ++ ("tag = ").toList).length = P.length + 6 := by
            simp [List.length_append]
          rw [hlen]
          exact hpatE rfl
        rw [hassoc, replaceAll_unique (by decide) hocc2]
        have hfin : finalTagFor [] = ("tag = ").toList ++ bareVersionStr := by decide
        rw [hfin]
        simp
      · rw [replaceAll_of_noOccur (by decide) (hpatN hpfx)]
        unfold finalTagFor
        rw [if_neg hpfx]
    rw [h2]
  constructor
  · intro hcl
    rw [hgw]
    unfold changelog_rewrite
    rw [hcl]
  · intro M cl S hT hclne hclS hclOnce
    subst hT
    rw [hgw]
    unfold changelog_rewrite
    rw [hclS]
    show Except.ok (replaceAll cl (clSub cl)
        (P ++ (finalTagFor pfx ++ (M ++ (cl ++ S))))) = _
    have hassoc2 : P ++ (finalTagFor pfx ++ (M ++ (cl ++ S))) =
        (P ++ finalTagFor pfx ++ M) ++ (cl ++ S) := by
      simp
    have hlen2 : (P ++ finalTagFor pfx ++ M).length =
        P.length + ((finalTagFor pfx).length + M.length) := by
      simp only [List.length_append]
      omega
    have hocc3 : occOnlyAt cl ((P ++ finalTagFor pfx ++ M) ++ (cl ++ S))
        (P ++ finalTagFor pfx ++ M).length := by
      rw [← hassoc2, hlen2]
      exact hclOnce
    rw [hassoc2, replaceAll_unique hclne hocc3]
    simp

def c2Rev : Str := ("rev = \"$\x7bversion\x7d\";").toList

def c2S : Str := ("\nexample = \"$\x7bversion\x7d\";\n").toList

/-- C2, counterexample to the claim as stated: in a definition whose text
is the rev assignment followed by an unrelated assignment whose value is
exactly the interpolated version, the rewrite (with discovered prefix
`v`) also rewrites the unrelated assignment to a bare version reference,
so the bytes after the rev/tag assignment (there is no changelog
assignment at all) are not left unchanged. -/
theorem C2_counterexample :
    revFindAll (c2Rev ++ c2S) = [c2Rev] ∧
    github_rewrite (("v").toList) (c2Rev ++ c2S) =
      .ok (("tag = \"v$\x7bversion\x7d\";\nexample = version;\n").toList) ∧
    isSuffixL c2S (("tag = \"v$\x7bversion\x7d\";\nexample = version;\n").toList) = false := by
  refine ⟨by decide, by decide, by decide⟩

def c2P : Str := ("  ").toList

def c2Rev2 : Str := ("rev = \"abc\";").toList

def c2T1 : Str := ("\n  pname = \"x\";\n").toList

def c2M : Str := ("\n  ").toList

def c2Cl : Str := ("changelog = \"https://x/v$\x7bversion\x7d\";").toList

def c2S2 : Str := ("\n").toList

/-- Witness for C2's amended theorem: the no-changelog branch at a
concrete definition with a discovered prefix, and the changelog branch at
a concrete definition with an empty prefix whose changelog value holds a
prefixed version reference. -/
theorem C2_witness :
    github_rewrite (("v").toList) (c2P ++ (c2Rev2 ++ c2T1)) =
      .ok (c2P ++ (finalTagFor (("v").toList) ++ c2T1)) ∧
    github_rewrite [] (c2P ++ (c2Rev2 ++ (c2M ++ (c2Cl ++ c2S2)))) =
      .ok (c2P ++ (finalTagFor [] ++ (c2M ++ (clSub c2Cl ++ c2S2)))) :=
  ⟨(C2_github_rewrite_amended (("v").toList) c2P c2Rev2 c2T1 (by decide) (by decide)
      (by decide) (fun h => absurd h (by decide)) (fun _ => by decide)).1 (by decide),
   (C2_github_rewrite_amended [] c2P c2Rev2 (c2M ++ (c2Cl ++ c2S2)) (by decide) (by decide)
      (by decide) (fun _ => by decide) (fun h => absurd rfl h)).2
      c2M c2Cl c2S2 rfl (by decide) (by decide) (by decide)⟩

/-!
## The orchestrator `_update_package`

The external collaborators (the attribute evaluator `_get_attr_value`
guarded calls, `FETCHERS[fetcher]` including its network access, and
`_hash_to_sri`) are supplied as an environment.  The single
`open(path, "w").write(text)` of the source happens after every
substitution has succeeded; the embedding returns the written texts as an
explicit list so that frame claims can speak about writes. -/

structure Env where
  updateNixAttrPath : Option Str
  bulkUpdate : Bool
  skipBulkUpdate : Str → Bool
  cargoDeps : Str → Bool
  fetch : Str → Str → Str → Str → Str → Target → Except Unit (Str × Option Str × Option Str)
  hashToSri : Str → Str → Str
  outputHash : Str → Option Str

/-- A successful per-pname fetch: the attribute path and pname used, the
new version, the checksum (or `None`) and the tag prefix (or `None`). -/
structure FetchOk where
  attrPath : Str
  pname : Str
  newVersion : Str
  sha256 : Option Str
  tagPfx : Option Str
deriving DecidableEq, Repr

/-- Python string interpolation of a possibly-`None` value. -/
def pyStr : Option Str → Str
  | some s => s
  | none => ("None").toList

/-- The per-pname fetch loop of `_update_package`: the bulk-update skip
and cargo checks raise (aborting the package), a fetcher `ValueError`
moves on to the next pname, and a successful fetch stops the loop. -/
def tryFetch (env : Env) (fetcher ext version : Str) (target : Target) :
    List Str → Except Err FetchOk
  | [] => .error .noMatchingPname
  | p :: rest =>
    let attr := match env.updateNixAttrPath with
      | some a => a
      | none => ("python3Packages.").toList ++ p
    if env.bulkUpdate && env.skipBulkUpdate attr then .error .bulkSkip
    else if env.cargoDeps attr then .error .cargoDeps
    else
      match env.fetch fetcher attr p ext version target with
      | .ok (nv, sha, pre) => .ok ⟨attr, p, nv, sha, pre⟩
      | .error _ => tryFetch env fetcher ext version target rest

structure UpdateRecord where
  pname : Str
  old_version : Str
  new_version : Str
  target : Target
deriving DecidableEq, Repr

/-- `_update_package` up to (but excluding) the final file write: read the
pnames and version, determine the fetcher and extension, try a fetch per
pname, detect the no-op (string equality) and the downgrade (parsed
comparison), require an artifact checksum, patch the version, normalize
the checksum and patch `hash` (falling back to `sha256`) against the old
output hash, and apply the fetchFromGitHub rewrite.  Returns `none` for
the no-op (`return False`), or the result record and the final text. -/
def update_package_core (env : Env) (text : Str) (target : Target) :
    Except Err (Option (UpdateRecord × Str)) := do
  let pnames := get_values (("pname").toList) text
  let version ← get_unique_value (("version").toList) text
  let fetcher ← determine_fetcher text
  let ext ← determine_extension text fetcher
  let fr ← tryFetch env fetcher ext version target pnames
  if fr.newVersion = version then
    return none
  else
    match parseVersion fr.newVersion, parseVersion version with
    | some a, some b =>
      if pvLe a b then .error .downgrade
      else
        match fr.sha256 with
        | none => .error .noArtifact
        | some sha =>
          if sha = [] then .error .noArtifact
          else do
            let t1 ← replace_value (("version").toList) fr.newVersion text none
            let sri := env.hashToSri (("sha256").toList) sha
            match env.outputHash fr.attrPath with
            | none => .error .noOldHash
            | some oldh => do
              let t2 ← match replace_value (("hash").toList) sri t1 (some oldh) with
                | .ok t => .ok t
                | .error _ => replace_value (("sha256").toList) sri t1 (some oldh)
              let t3 ← if fetcher = ("fetchFromGitHub").toList then
                  github_rewrite (pyStr fr.tagPfx) t2
                else .ok t2
              return some (⟨fr.pname, version, fr.newVersion, target⟩, t3)
    | _, _ => .error .invalidVersion

/-- `_update_package` with its write effect: the second component lists
the texts written to the definition file, in order (the source writes
exactly once, at the very end of a successful update). -/
def update_package (env : Env) (text : Str) (target : Target) :
    Except Err (Option UpdateRecord) × List Str :=
  match update_package_core env text target with
  | .ok (some (r, t)) => (.ok (some r), [t])
  | .ok none => (.ok none, [])
  | .error e => (.error e, [])

/-- C8: when the resolved latest version string equals the declared
version string, `_update_package` terminates as a no-op skip
(`return False`), not a failure, and writes nothing back: the definition
file keeps its prior contents. -/
theorem C8_noop_no_write (env : Env) (text : Str) (target : Target)
    (v fetcher ext : Str) (fr : FetchOk)
    (hv : get_unique_value (("version").toList) text = .ok v)
    (hf : determine_fetcher text = .ok fetcher)
    (he : determine_extension text fetcher = .ok ext)
    (ht : tryFetch env fetcher ext v target (get_values (("pname").toList) text) = .ok fr)
    (hnv : fr.newVersion = v) :
    update_package env text target = (.ok none, []) := by
  have hcore : update_package_core env text target = .ok none := by
    unfold update_package_core
    rw [hv]
    simp only [bind, Except.bind, hf, he, ht, hnv, if_pos rfl]
    rfl
  unfold update_package
  rw [hcore]

def envC8 : Env := ⟨none, false, (fun _ => false), (fun _ => false),
  (fun _ _ _ _ _ _ => .ok ((("1.0").toList), some (("abc").toList), none)),
  (fun _ s => s), (fun _ => some (("x").toList))⟩

def c10Text : Str :=
  ("  pname = \"foo\";\n  version = \"1.0\";\n  src = fetchPypi \x7b\n    inherit version;\n  \x7d;\n").toList

/-- Witness for C8 on a concrete definition text already at the fetched
version. -/
theorem C8_witness : update_package envC8 c10Text Target.major = (.ok none, []) :=
  C8_noop_no_write envC8 c10Text Target.major (("1.0").toList) (("fetchPypi").toList)
    (("tar.gz").toList)
    ⟨("python3Packages.foo").toList, ("foo").toList, ("1.0").toList,
      some (("abc").toList), none⟩
    (by decide) (by decide) (by decide) (by decide) (by decide)

/-- C9: whenever `_update_package` fails, nothing is written: the single
write of the definition file happens only after every substitution for
the package has succeeded. -/
theorem C9_no_write_on_error (env : Env) (text : Str) (target : Target) (e : Err)
    (h : (update_package env text target).1 = .error e) :
    (update_package env text target).2 = [] := by
  unfold update_package at h ⊢
  cases hc : update_package_core env text target with
  | error e2 => rfl
  | ok o =>
    cases o with
    | none => rfl
    | some p =>
      obtain ⟨r, t⟩ := p
      rw [hc] at h
      have h2 : (Except.ok (some r) : Except Err (Option UpdateRecord)) = .error e := h
      exact absurd h2 (by simp)

/-- Witness for C9 on a definition text with no version assignment. -/
theorem C9_witness : (update_package envC8 (("x = 1;").toList) Target.major).2 = [] :=
  C9_no_write_on_error envC8 (("x = 1;").toList) Target.major Err.attributeNotFound
    (by decide)

theorem pvLe_of_keyEq {a b : PVersion} (h : keyEq a b = true) : pvLe a b = true := by
  unfold pvLe
  rw [h]
  simp

/-- C10: the no-op check compares the version strings literally while the
downgrade check compares parsed versions, so a resolved version string
that differs textually from the declared one yet parses to an equal
version makes `_update_package` fail with the downgrade error instead of
reporting the no-op skip, and nothing is written. -/
theorem C10_textual_noop_is_downgrade (env : Env) (text : Str) (target : Target)
    (v fetcher ext : Str) (fr : FetchOk) (a b : PVersion)
    (hv : get_unique_value (("version").toList) text = .ok v)
    (hf : determine_fetcher text = .ok fetcher)
    (he : determine_extension text fetcher = .ok ext)
    (ht : tryFetch env fetcher ext v target (get_values (("pname").toList) text) = .ok fr)
    (hne : fr.newVersion ≠ v)
    (hpa : parseVersion fr.newVersion = some a)
    (hpb : parseVersion v = some b)
    (heq : keyEq a b = true) :
    update_package env text target = (.error .downgrade, []) := by
  have hcore : update_package_core env text target = .error .downgrade := by
    unfold update_package_core
    rw [hv]
    simp only [bind, Except.bind, hf, he, ht, if_neg hne, hpa, hpb,
      pvLe_of_keyEq heq, if_pos rfl]
    rfl
  unfold update_package
  rw [hcore]

def envC10 : Env := ⟨none, false, (fun _ => false), (fun _ => false),
  (fun _ _ _ _ _ _ => .ok ((("1.0.0").toList), some (("abc").toList), none)),
  (fun _ s => s), (fun _ => some (("x").toList))⟩

/-- Witness for C10: declared `1.0`, resolved `1.0.0`: textually
different, numerically equal, reported as a downgrade failure. -/
theorem C10_witness : update_package envC10 c10Text Target.major = (.error .downgrade, []) :=
  C10_textual_noop_is_downgrade envC10 c10Text Target.major (("1.0").toList)
    (("fetchPypi").toList) (("tar.gz").toList)
    ⟨("python3Packages.foo").toList, ("foo").toList, ("1.0.0").toList,
      some (("abc").toList), none⟩
    ⟨[1, 0, 0], none, ("1.0.0").toList⟩ ⟨[1, 0], none, ("1.0").toList⟩
    (by decide) (by decide) (by decide) (by decide) (by decide) (by decide)
    (by decide) (by decide)
